import Mathlib

/-!
# Verification of the KULIM Korean morphological analyzer / phonological processor

Shallow embedding of the core of the KULIM repository:
* `Hangul` embeds `src/hangul/src/hangul/hangul.py`
* `Pron` embeds `src/pronunciation/src/pronunciation/pronunciation.py`
* `KTrie` embeds `src/grammar/src/grammar/trie.py`
* `Stem` embeds `src/grammar/src/grammar/stemmer.py` (plus the modules it calls:
  `conjugation.py`, `irregular.py`, `constraints.py`, `scorers.py`) and
  `MorphAnalyzer.analyze` / `train_eojeol` from `analyzer.py`
* `DATrie` embeds the statefulness of `DoubleArrayTrie.insert` from `trie_da.py`
* `KG` embeds `KGFormat` from `kg_format.py`
* `Roman` embeds `src/romanization/src/romanization/romanization.py`

Python strings are `List Char`; a Python jamo slot (a one-character string, the
empty string `""` or `None`) is `Option Char` (`""` and `None` behave identically
at every program point reached here: both are falsy, compare unequal to every
jamo character, and are absent from every list the code tests membership in).
Exceptions are `Option` / `Except`.
-/

set_option maxRecDepth 10000
set_option maxHeartbeats 1000000

/-- A jamo slot as used throughout the Python code: a single jamo character,
or the empty / null slot (`none`). -/
abbrev Slot := Option Char

namespace Hangul

/-- `hangul.CHOSUNG`: the 19 modern initial consonants. -/
def CHOSUNG : List Char :=
  ['ㄱ', 'ㄲ', 'ㄴ', 'ㄷ', 'ㄸ', 'ㄹ', 'ㅁ', 'ㅂ', 'ㅃ', 'ㅅ', 'ㅆ', 'ㅇ', 'ㅈ', 'ㅉ', 'ㅊ', 'ㅋ', 'ㅌ', 'ㅍ', 'ㅎ']

/-- `hangul.JUNGSUNG`: the 21 modern medial vowels. -/
def JUNGSUNG : List Char :=
  ['ㅏ', 'ㅐ', 'ㅑ', 'ㅒ', 'ㅓ', 'ㅔ', 'ㅕ', 'ㅖ', 'ㅗ', 'ㅘ', 'ㅙ', 'ㅚ', 'ㅛ', 'ㅜ', 'ㅝ', 'ㅞ', 'ㅟ', 'ㅠ', 'ㅡ', 'ㅢ', 'ㅣ']

/-- `hangul.JONGSUNG`: the 28 final slots; index 0 is the empty final (`""`, here `none`). -/
def JONGSUNG : List Slot :=
  [none, some 'ㄱ', some 'ㄲ', some 'ㄳ', some 'ㄴ', some 'ㄵ', some 'ㄶ', some 'ㄷ',
   some 'ㄹ', some 'ㄺ', some 'ㄻ', some 'ㄼ', some 'ㄽ', some 'ㄾ', some 'ㄿ', some 'ㅀ',
   some 'ㅁ', some 'ㅂ', some 'ㅄ', some 'ㅅ', some 'ㅆ', some 'ㅇ', some 'ㅈ', some 'ㅊ',
   some 'ㅋ', some 'ㅌ', some 'ㅍ', some 'ㅎ']

/-- `hangul.is_hangul`: precomposed-syllable range or one of the Jamo ranges. -/
def isHangul (ch : Char) : Bool :=
  let code := ch.toNat
  (0xAC00 ≤ code ∧ code ≤ 0xD7A3) ∨
  (0x1100 ≤ code ∧ code ≤ 0x11FF) ∨
  (0xA960 ≤ code ∧ code ≤ 0xA97F) ∨
  (0xD7B0 ≤ code ∧ code ≤ 0xD7FF) ∨
  (0x3130 ≤ code ∧ code ≤ 0x318F)

/-- `hangul.is_complete_hangul`: a precomposed modern syllable. -/
def isCompleteHangul (ch : Char) : Bool :=
  0xAC00 ≤ ch.toNat ∧ ch.toNat ≤ 0xD7A3

/-- `hangul.decompose`: a modern syllable yields its (initial, medial, final) triple
by the Unicode arithmetic; an isolated jamo is put in the slot it occupies, the other
slots empty; anything else yields the null triple. -/
def decompose (ch : Char) : Slot × Slot × Slot :=
  let codeRaw := ch.toNat
  if 0xAC00 ≤ codeRaw ∧ codeRaw ≤ 0xD7A3 then
    let code := codeRaw - 0xAC00
    let jong := code % 28
    let jung := ((code - jong) / 28) % 21
    let cho := ((code - jong) / 28) / 21
    (some (CHOSUNG.getD cho 'ㄱ'), some (JUNGSUNG.getD jung 'ㅏ'), JONGSUNG.getD jong none)
  else if (0x1100 ≤ codeRaw ∧ codeRaw ≤ 0x115F) ∨ (0xA960 ≤ codeRaw ∧ codeRaw ≤ 0xA97F) then
    (some ch, none, none)
  else if (0x1160 ≤ codeRaw ∧ codeRaw ≤ 0x11A2) ∨ (0xD7B0 ≤ codeRaw ∧ codeRaw ≤ 0xD7C6) then
    (none, some ch, none)
  else if (0x11A8 ≤ codeRaw ∧ codeRaw ≤ 0x11F9) ∨ (0xD7CB ≤ codeRaw ∧ codeRaw ≤ 0xD7FB) then
    (none, none, some ch)
  else if (0x3131 ≤ codeRaw ∧ codeRaw ≤ 0x314E) ∨ (0x3165 ≤ codeRaw ∧ codeRaw ≤ 0x318E) then
    (some ch, none, none)
  else if 0x314F ≤ codeRaw ∧ codeRaw ≤ 0x3163 then
    (none, some ch, none)
  else
    (none, none, none)

/-- `hangul.compose`: inverse for modern syllables; `none` when the initial or medial
slot is empty or not a modern jamo (`CHOSUNG.index` / `JUNGSUNG.index` raising
`ValueError` is the `none` branch; an unknown final defaults to index 0). -/
def compose (cho jung jong : Slot) : Option Char :=
  match cho, jung with
  | some c, some j =>
    let jongIdx := if JONGSUNG.contains jong then JONGSUNG.indexOf jong else 0
    if CHOSUNG.contains c ∧ JUNGSUNG.contains j then
      some (Char.ofNat (0xAC00 + CHOSUNG.indexOf c * 588 + JUNGSUNG.indexOf j * 28 + jongIdx))
    else none
  | _, _ => none

end Hangul

namespace Pron

open Hangul

/-- An element of the `chars` working list in `pronounce`: a non-Hangul character
kept as-is (`.inl`), or a decomposed triple `[cho, jung, jong]` (`.inr`). -/
abbrev Item := Char ⊕ (Slot × Slot × Slot)

/-- Membership of a slot in a list of jamo characters (`jong1 in ['ㄱ', ...]`);
the empty / null slot is in no such list. -/
def slotIn (s : Slot) (l : List Char) : Bool :=
  match s with
  | some c => l.contains c
  | none => false

/-- `pronunciation.JONG_NEUTRAL` (final-consonant neutralization table). -/
def JONG_NEUTRAL : List (Char × Char) :=
  [('ㄲ', 'ㄱ'), ('ㄳ', 'ㄱ'), ('ㅋ', 'ㄱ'),
   ('ㅅ', 'ㄷ'), ('ㅆ', 'ㄷ'), ('ㅈ', 'ㄷ'), ('ㅊ', 'ㄷ'), ('ㅌ', 'ㄷ'), ('ㅎ', 'ㄷ'),
   ('ㄼ', 'ㄹ'), ('ㄽ', 'ㄹ'), ('ㄾ', 'ㄹ'), ('ㅀ', 'ㄹ'),
   ('ㄵ', 'ㄴ'), ('ㄶ', 'ㄴ'),
   ('ㄻ', 'ㅁ'),
   ('ㄿ', 'ㅂ'), ('ㅄ', 'ㅂ')]

/-- `pronunciation.CLUSTER_SIMPLE` (cluster simplification table). -/
def CLUSTER_SIMPLE : List (Char × Char) :=
  [('ㄳ', 'ㄱ'), ('ㄵ', 'ㄴ'), ('ㄶ', 'ㄴ'), ('ㄺ', 'ㄱ'), ('ㄻ', 'ㅁ'),
   ('ㄼ', 'ㄹ'), ('ㄽ', 'ㄹ'), ('ㄾ', 'ㄹ'), ('ㄿ', 'ㅂ'), ('ㅀ', 'ㄹ'), ('ㅄ', 'ㅂ')]

/-- `dict.get(key, default)` on a `Char`-keyed table, lifted to slots:
the empty / null slot is never a key, so it returns the default. -/
def slotGetD (tbl : List (Char × Char)) (s : Slot) (dflt : Slot) : Slot :=
  match s with
  | some c =>
    match tbl.lookup c with
    | some v => some v
    | none => dflt
  | none => dflt

/-- `pronunciation.simplify_cluster` (the `'넓'` branch is dead code: a full
syllable never equals a jamo slot, and its body is `pass`). -/
def simplifyCluster (jong : Slot) (nextCho : Slot) : Slot :=
  if jong = some 'ㄺ' ∧ nextCho = some 'ㄱ' then some 'ㄹ'
  else if jong = some 'ㄼ' then some 'ㄹ'
  else slotGetD CLUSTER_SIMPLE jong jong

/-- Read the initial slot of `chars[i]` (null when out of range or non-Hangul). -/
def getCho (a : List Item) (i : Nat) : Slot :=
  match a.get? i with
  | some (.inr t) => t.1
  | _ => none

/-- Read the final slot of `chars[i]` (null when out of range or non-Hangul). -/
def getJong (a : List Item) (i : Nat) : Slot :=
  match a.get? i with
  | some (.inr t) => t.2.2

  | _ => none

/-- `chars[i][0] = v` (no effect on a non-Hangul entry; the Python code only
writes at positions it has checked to be lists). -/
def setCho (a : List Item) (i : Nat) (v : Slot) : List Item :=
  match a.get? i with
  | some (.inr (_, j, g)) => a.set i (.inr (v, j, g))
  | _ => a

/-- `chars[i][2] = v`. -/
def setJong (a : List Item) (i : Nat) (v : Slot) : List Item :=
  match a.get? i with
  | some (.inr (c, j, _)) => a.set i (.inr (c, j, v))
  | _ => a

/-- Is `chars[i]` a decomposed (Hangul) entry? -/
def isList (a : List Item) (i : Nat) : Bool :=
  match a.get? i with
  | some (.inr _) => true
  | _ => false

/-- The `merged_cho` selection of Pass 1, Case A. -/
def pass1MergedCho (jong1 : Slot) : Slot :=
  if slotIn jong1 ['ㄱ', 'ㄲ', 'ㅋ', 'ㄳ', 'ㄺ'] then some 'ㅋ'
  else if slotIn jong1 ['ㄷ', 'ㅅ', 'ㅆ', 'ㅈ', 'ㅊ', 'ㅌ'] then some 'ㅌ'
  else if slotIn jong1 ['ㅂ', 'ㅍ', 'ㄼ', 'ㄿ', 'ㅄ'] then some 'ㅍ'
  else if slotIn jong1 ['ㅈ', 'ㄵ'] then some 'ㅊ'
  else none

/-- Pass 1, Case A (`받침 + ㅎ`): aspiration of the onset and removal of the
triggering part of the coda. `jong1`/`cho2` are the values captured at the top
of the loop body. -/
def pass1CaseA (a : List Item) (i : Nat) (jong1 cho2 : Slot) : List Item :=
  if cho2 = some 'ㅎ' then
    match pass1MergedCho jong1 with
    | some m =>
      let a := setCho a (i+1) (some m)
      if slotIn jong1 ['ㄺ', 'ㄼ', 'ㄵ', 'ㄳ', 'ㄶ', 'ㅀ', 'ㄻ', 'ㄽ', 'ㄾ', 'ㄿ', 'ㅄ'] then
        if jong1 = some 'ㄺ' then setJong a i (some 'ㄹ')
        else if jong1 = some 'ㄼ' then setJong a i (some 'ㄹ')
        else if jong1 = some 'ㄵ' then setJong a i (some 'ㄴ')
        else if jong1 = some 'ㄳ' then setJong a i (some 'ㄴ')
        else if jong1 = some 'ㄶ' then setJong a i (some 'ㄴ')
        else if jong1 = some 'ㅀ' then setJong a i (some 'ㄹ')
        else setJong a i none
      else setJong a i none
    | none => a
  else a

/-- Pass 1, Case B (`ㅎ-type coda + plain onset`), on the captured `jong1`/`cho2`
(the two cases are mutually exclusive, so the stale reads are harmless, exactly
as in the source). -/
def pass1CaseB (a : List Item) (i : Nat) (jong1 cho2 : Slot) : List Item :=
  if slotIn jong1 ['ㅎ', 'ㄶ', 'ㅀ'] then
    if slotIn cho2 ['ㄱ', 'ㄷ', 'ㅂ', 'ㅈ', 'ㅅ'] then
      if jong1 = some 'ㅎ' then
        if cho2 = some 'ㄱ' then setJong (setCho a (i+1) (some 'ㅋ')) i none
        else if cho2 = some 'ㄷ' then setJong (setCho a (i+1) (some 'ㅌ')) i none
        else if cho2 = some 'ㅂ' then setJong (setCho a (i+1) (some 'ㅍ')) i none
        else if cho2 = some 'ㅈ' then setJong (setCho a (i+1) (some 'ㅊ')) i none
        else setJong (setCho a (i+1) (some 'ㅆ')) i none
      else if jong1 = some 'ㄶ' then
        if cho2 = some 'ㄱ' then setJong (setCho a (i+1) (some 'ㅋ')) i (some 'ㄴ')
        else if cho2 = some 'ㄷ' then setJong (setCho a (i+1) (some 'ㅌ')) i (some 'ㄴ')
        else if cho2 = some 'ㅈ' then setJong (setCho a (i+1) (some 'ㅊ')) i (some 'ㄴ')
        else if cho2 = some 'ㅅ' then setJong (setCho a (i+1) (some 'ㅆ')) i (some 'ㄴ')
        else a
      else
        if cho2 = some 'ㄱ' then setJong (setCho a (i+1) (some 'ㅋ')) i (some 'ㄹ')
        else if cho2 = some 'ㄷ' then setJong (setCho a (i+1) (some 'ㅌ')) i (some 'ㄹ')
        else if cho2 = some 'ㅈ' then setJong (setCho a (i+1) (some 'ㅊ')) i (some 'ㄹ')
        else if cho2 = some 'ㅅ' then setJong (setCho a (i+1) (some 'ㅆ')) i (some 'ㄹ')
        else a
    else a
  else a

/-- Pass 1 body at position `i`: aspiration and the coda-ㅎ interaction.
`jong1` and `cho2` are captured once at the top, exactly as the Python
local variables are. -/
def pass1Step (a : List Item) (i : Nat) : List Item :=
  match a.get? i, a.get? (i+1) with
  | some (.inr curr), some (.inr nxt) =>
    pass1CaseB (pass1CaseA a i curr.2.2 nxt.1) i curr.2.2 nxt.1
  | _, _ => a

/-- Pass 2, step 2-1 (ㅎ-deletion before an ㅇ onset). -/
def pass2HDel (a : List Item) (i : Nat) (jong1 cho2 : Slot) : List Item :=
  if cho2 = some 'ㅇ' then
    if jong1 = some 'ㅎ' then setJong a i none
    else if jong1 = some 'ㄶ' then setJong a i (some 'ㄴ')
    else if jong1 = some 'ㅀ' then setJong a i (some 'ㄹ')
    else a
  else a

/-- Pass 2, step 2-2 (palatalization), on the re-read `jong1`. -/
def pass2Palatal (a : List Item) (i : Nat) (jong1 cho2 jung2 : Slot) : List Item :=
  if cho2 = some 'ㅇ' ∧ slotIn jung2 ['ㅣ', 'ㅑ', 'ㅕ', 'ㅛ', 'ㅠ', 'ㅖ', 'ㅒ'] then
    if jong1 = some 'ㄷ' then setJong (setCho a (i+1) (some 'ㅈ')) i none
    else if jong1 = some 'ㅌ' then setJong (setCho a (i+1) (some 'ㅊ')) i none
    else if jong1 = some 'ㄾ' then setJong (setCho a (i+1) (some 'ㅊ')) i (some 'ㄹ')
    else a
  else a

/-- Pass 2, step 2-3 (liaison), with both slots re-read fresh. -/
def pass2Liaison (a : List Item) (i : Nat) : List Item :=
  if (getJong a i).isSome ∧ getCho a (i+1) = some 'ㅇ' then
    let j := getJong a i
    if slotIn j Hangul.CHOSUNG then setJong (setCho a (i+1) j) i none
    else if j = some 'ㄳ' then setJong (setCho a (i+1) (some 'ㅅ')) i (some 'ㄱ')
    else if j = some 'ㄵ' then setJong (setCho a (i+1) (some 'ㅈ')) i (some 'ㄴ')
    else if j = some 'ㄶ' then setJong (setCho a (i+1) (some 'ㄴ')) i none
    else if j = some 'ㄺ' then setJong (setCho a (i+1) (some 'ㄱ')) i (some 'ㄹ')
    else if j = some 'ㄻ' then setJong (setCho a (i+1) (some 'ㅁ')) i (some 'ㄹ')
    else if j = some 'ㄼ' then setJong (setCho a (i+1) (some 'ㅂ')) i (some 'ㄹ')
    else if j = some 'ㄽ' then setJong (setCho a (i+1) (some 'ㅅ')) i (some 'ㄹ')
    else if j = some 'ㄾ' then setJong (setCho a (i+1) (some 'ㅌ')) i (some 'ㄹ')
    else if j = some 'ㄿ' then setJong (setCho a (i+1) (some 'ㅍ')) i (some 'ㄹ')
    else if j = some 'ㅀ' then setJong (setCho a (i+1) (some 'ㄹ')) i none
    else if j = some 'ㅄ' then setJong (setCho a (i+1) (some 'ㅆ')) i (some 'ㅂ')
    else a
  else a

/-- Pass 2 body at position `i`: ㅎ-deletion, palatalization, liaison.
`jong1` is re-read after the ㅎ-deletion write, and the liaison guard re-reads
both slots, exactly as the source does. -/
def pass2Step (a : List Item) (i : Nat) : List Item :=
  match a.get? i, a.get? (i+1) with
  | some (.inr curr), some (.inr nxt) =>
    let a := pass2HDel a i curr.2.2 nxt.1
    let a := pass2Palatal a i (getJong a i) nxt.1 nxt.2.1
    pass2Liaison a i
  | _, _ => a

/-- Pass 3 body at position `i`: cluster simplification and neutralization,
applied only when the follower is a Hangul consonant onset or `i` is last. -/
def pass3Step (n : Nat) (a : List Item) (i : Nat) : List Item :=
  if isList a i then
    let nextIsCons :=
      if i + 1 < n ∧ isList a (i+1) then getCho a (i+1) ≠ some 'ㅇ'
      else i = n - 1
    if nextIsCons ∨ i = n - 1 then
      let jong := getJong a i
      if jong.isNone then a
      else
        let nextCho := if i + 1 < n ∧ isList a (i+1) then getCho a (i+1) else none
        let simpleJong := simplifyCluster jong nextCho
        let neutralJong := slotGetD JONG_NEUTRAL simpleJong simpleJong
        setJong a i neutralJong
    else a
  else a

/-- The `tens_map` write of Pass 4. -/
def tensWrite (a : List Item) (i : Nat) (cho2 : Slot) : List Item :=
  if cho2 = some 'ㄱ' then setCho a (i+1) (some 'ㄲ')
  else if cho2 = some 'ㄷ' then setCho a (i+1) (some 'ㄸ')
  else if cho2 = some 'ㅂ' then setCho a (i+1) (some 'ㅃ')
  else if cho2 = some 'ㅅ' then setCho a (i+1) (some 'ㅆ')
  else if cho2 = some 'ㅈ' then setCho a (i+1) (some 'ㅉ')
  else a

/-- Pass 4 body at position `i`: tensification, consulting the original final
`orig` recorded before any pass ran. -/
def pass4Step (orig : Slot) (a : List Item) (i : Nat) : List Item :=
  match a.get? i, a.get? (i+1) with
  | some (.inr curr), some (.inr nxt) =>
    let jong1 := curr.2.2
    let cho2 := nxt.1
    if jong1.isNone then a
    else
      let shouldTensify :=
        (slotIn jong1 ['ㄱ', 'ㄷ', 'ㅂ'] ∧ slotIn cho2 ['ㄱ', 'ㄷ', 'ㅂ', 'ㅅ', 'ㅈ']) ∨
        (slotIn orig ['ㄵ', 'ㄶ', 'ㄻ', 'ㄼ', 'ㄾ', 'ㅀ'] ∧ slotIn cho2 ['ㄱ', 'ㄷ', 'ㅅ', 'ㅈ']) ∨
        (jong1 = some 'ㄹ' ∧ slotIn cho2 ['ㄱ', 'ㄷ', 'ㅅ', 'ㅈ'] ∧
          slotIn orig ['ㄺ', 'ㄼ', 'ㄾ', 'ㅀ'])
      if shouldTensify then tensWrite a i cho2 else a
  | _, _ => a

/-- Pass 5, liquidization. -/
def pass5Liquid (a : List Item) (i : Nat) (jong1 cho2 : Slot) : List Item :=
  if jong1 = some 'ㄴ' ∧ cho2 = some 'ㄹ' then setCho (setJong a i (some 'ㄹ')) (i+1) (some 'ㄹ')
  else if jong1 = some 'ㄹ' ∧ cho2 = some 'ㄴ' then setCho a (i+1) (some 'ㄹ')
  else a

/-- Pass 5, nasalization of obstruents, on the (possibly refreshed) `cho2`. -/
def pass5NasalObs (a : List Item) (i : Nat) (jong1 cho2 : Slot) : List Item :=
  if slotIn jong1 ['ㄱ', 'ㄷ', 'ㅂ'] ∧ slotIn cho2 ['ㄴ', 'ㅁ'] then
    if jong1 = some 'ㄱ' then setJong a i (some 'ㅇ')
    else if jong1 = some 'ㄷ' then setJong a i (some 'ㄴ')
    else setJong a i (some 'ㅁ')
  else a

/-- Pass 5 body at position `i`: liquid and nasal assimilation. The Python
locals `jong1`/`cho2` are stale after the liquidization writes except that the
liquid-nasalization branch refreshes `cho2`; mirrored exactly. -/
def pass5Step (a : List Item) (i : Nat) : List Item :=
  match a.get? i, a.get? (i+1) with
  | some (.inr curr), some (.inr nxt) =>
    let jong1 := curr.2.2
    let cho2 := nxt.1
    let a := pass5Liquid a i jong1 cho2
    -- Nasalization of liquids (refreshes the local `cho2`)
    let st :=
      if slotIn jong1 ['ㄱ', 'ㄷ', 'ㅂ', 'ㅁ', 'ㅇ'] ∧ cho2 = some 'ㄹ' then
        (setCho a (i+1) (some 'ㄴ'), (some 'ㄴ' : Slot))
      else (a, cho2)
    pass5NasalObs st.1 i jong1 st.2
  | _, _ => a

/-- Convert one input character to a working item (`pronounce`, decomposition stage). -/
def charToItem (c : Char) : Item :=
  if Hangul.isHangul c then .inr (Hangul.decompose c) else .inl c

/-- `original_jongs.get(i, '')`: the final recorded at decomposition time. -/
def origJong (init : List Item) (i : Nat) : Slot :=
  match init.get? i with
  | some (.inr t) => t.2.2
  | _ => none

/-- Recomposition of one item (`hangul.compose(*c) if isinstance(c, list) else c`);
`none` is the `TypeError` raised by `"".join` on a `None` entry. -/
def itemOut (it : Item) : Option Char :=
  match it with
  | .inl c => some c
  | .inr (c, j, g) => Hangul.compose c j g

/-- `"".join(...)` over the recomposed items; `none` when any item fails to
recompose (the `TypeError` path). -/
def joinItems : List Item → Option (List Char)
  | [] => some []
  | it :: rest =>
    match itemOut it, joinItems rest with
    | some c, some cs => some (c :: cs)
    | _, _ => none

/-- `pronunciation.pronounce`, embedded on code-point lists. `none` means the
Python function raises (the recomposition join meeting a non-composable item). -/
def pronounce (text : List Char) : Option (List Char) :=
  if text = [] then some []
  else
    let init : List Item := text.map charToItem
    let n := init.length
    let a := (List.range (n - 1)).foldl pass1Step init
    let a := (List.range (n - 1)).foldl pass2Step a
    let a := (List.range n).foldl (pass3Step n) a
    let a := (List.range (n - 1)).foldl (fun b i => pass4Step (origJong init i) b i) a
    let a := (List.range (n - 1)).foldl pass5Step a
    joinItems a

/-- `pronounce` on Lean strings. -/
def pronounceStr (s : String) : Option String :=
  (pronounce s.data).map (fun l => String.mk l)

end Pron

namespace Pron

/-! ### Validity of working items

A decomposed item whose initial is a modern initial consonant and whose medial
is a modern vowel recomposes successfully; the passes preserve this, because no
pass writes the medial slot and every initial they write is a modern initial. -/

/-- A working item that recomposes: non-Hangul, or a triple whose initial is in
`CHOSUNG` and whose medial is in `JUNGSUNG`. -/
def ItemOk : Item → Prop
  | .inl _ => True
  | .inr (c, j, _) => (∃ x, c = some x ∧ x ∈ Hangul.CHOSUNG) ∧
      (∃ y, j = some y ∧ y ∈ Hangul.JUNGSUNG)

/-- All items of a working list recompose. -/
def ArrOk (a : List Item) : Prop := ∀ it ∈ a, ItemOk it

theorem getD_mem_or_eq (l : List Char) (i : Nat) (d : Char) :
    l.getD i d ∈ l ∨ l.getD i d = d := by
  induction l generalizing i with
  | nil => right; rfl
  | cons x xs ih =>
    cases i with
    | zero => left; simp [List.getD]
    | succ n =>
      rw [List.getD_cons_succ]
      rcases ih n with h | h
      · left; exact List.mem_cons_of_mem _ h
      · right; exact h

theorem getD_mem_of_default_mem {l : List Char} {i : Nat} {d : Char} (h : d ∈ l) :
    l.getD i d ∈ l := by
  rcases getD_mem_or_eq l i d with hm | he
  · exact hm
  · rw [he]; exact h

theorem mem_of_slotIn {v : Slot} {l : List Char} (hv : slotIn v l = true) :
    ∃ x, v = some x ∧ x ∈ l := by
  rcases v with _ | x
  · simp [slotIn] at hv
  · exact ⟨x, rfl, List.mem_of_elem_eq_true (by simpa [slotIn] using hv)⟩

theorem itemOk_decompose {c : Char} (h : Hangul.isCompleteHangul c = true) :
    ItemOk (.inr (Hangul.decompose c)) := by
  have hr : 0xAC00 ≤ c.toNat ∧ c.toNat ≤ 0xD7A3 := by
    simpa [Hangul.isCompleteHangul] using h
  unfold Hangul.decompose
  simp only [hr, and_self, if_true]
  refine ⟨⟨_, rfl, ?_⟩, ⟨_, rfl, ?_⟩⟩
  · exact getD_mem_of_default_mem (by decide)
  · exact getD_mem_of_default_mem (by decide)

theorem itemOk_charToItem {c : Char} (h : Hangul.isHangul c → Hangul.isCompleteHangul c) :
    ItemOk (charToItem c) := by
  unfold charToItem
  by_cases hh : Hangul.isHangul c
  · simp only [hh, if_true]
    exact itemOk_decompose (h hh)
  · simp only [hh]
    simp [ItemOk]

theorem arrOk_set {a : List Item} {i : Nat} {it : Item} (h : ArrOk a) (hit : ItemOk it) :
    ArrOk (a.set i it) := by
  intro x hx
  rcases List.mem_or_eq_of_mem_set hx with hx | rfl
  · exact h x hx
  · exact hit

theorem arrOk_setJong {a : List Item} {i : Nat} {v : Slot} (h : ArrOk a) :
    ArrOk (setJong a i v) := by
  unfold setJong
  split
  · next c j g heq =>
    have hold := h _ (List.get?_mem heq)
    exact arrOk_set h ⟨hold.1, hold.2⟩
  · exact h

theorem arrOk_setCho {a : List Item} {i : Nat} {v : Slot} (h : ArrOk a)
    (hv : slotIn v Hangul.CHOSUNG = true) : ArrOk (setCho a i v) := by
  unfold setCho
  split
  · next c j g heq =>
    have hold := h _ (List.get?_mem heq)
    rcases mem_of_slotIn hv with ⟨x, rfl, hx⟩
    exact arrOk_set h ⟨⟨x, rfl, hx⟩, hold.2⟩
  · exact h

theorem arrOk_ite {c : Prop} [Decidable c] {x y : List Item}
    (hx : ArrOk x) (hy : ArrOk y) : ArrOk (if c then x else y) := by
  by_cases h : c
  · rwa [if_pos h]
  · rwa [if_neg h]

theorem slotIn_pass1MergedCho {j : Slot} {m : Char} (h : pass1MergedCho j = some m) :
    slotIn (some m) Hangul.CHOSUNG = true := by
  unfold pass1MergedCho at h
  repeat' split at h
  all_goals cases h <;> decide

theorem arrOk_pass1CaseA {a : List Item} {i : Nat} {j c : Slot} (h : ArrOk a) :
    ArrOk (pass1CaseA a i j c) := by
  unfold pass1CaseA
  split
  · split
    · next m heq =>
      have hm := slotIn_pass1MergedCho heq
      dsimp only
      repeat' first
      | assumption
      | apply arrOk_ite
      | apply arrOk_setJong
      | apply arrOk_setCho _ hm
    · exact h
  · exact h

theorem arrOk_pass1CaseB {a : List Item} {i : Nat} {j c : Slot} (h : ArrOk a) :
    ArrOk (pass1CaseB a i j c) := by
  unfold pass1CaseB
  repeat' first
  | assumption
  | apply arrOk_ite
  | apply arrOk_setJong
  | apply arrOk_setCho _ (by decide)

theorem arrOk_pass1Step {a : List Item} {i : Nat} (h : ArrOk a) : ArrOk (pass1Step a i) := by
  unfold pass1Step
  split
  · exact arrOk_pass1CaseB (arrOk_pass1CaseA h)
  · exact h

theorem arrOk_pass2HDel {a : List Item} {i : Nat} {j c : Slot} (h : ArrOk a) :
    ArrOk (pass2HDel a i j c) := by
  unfold pass2HDel
  repeat' first
  | assumption
  | apply arrOk_ite
  | apply arrOk_setJong

theorem arrOk_pass2Palatal {a : List Item} {i : Nat} {j c m : Slot} (h : ArrOk a) :
    ArrOk (pass2Palatal a i j c m) := by
  unfold pass2Palatal
  repeat' first
  | assumption
  | apply arrOk_ite
  | apply arrOk_setJong
  | apply arrOk_setCho _ (by decide)

theorem arrOk_pass2Liaison {a : List Item} {i : Nat} (h : ArrOk a) :
    ArrOk (pass2Liaison a i) := by
  unfold pass2Liaison
  apply arrOk_ite _ h
  dsimp only
  by_cases hin : slotIn (getJong a i) Hangul.CHOSUNG = true
  · rw [if_pos hin]
    exact arrOk_setJong (arrOk_setCho h hin)
  · rw [if_neg hin]
    repeat' first
    | assumption
    | apply arrOk_ite
    | apply arrOk_setJong
    | apply arrOk_setCho _ (by decide)

theorem arrOk_pass2Step {a : List Item} {i : Nat} (h : ArrOk a) : ArrOk (pass2Step a i) := by
  unfold pass2Step
  split
  · exact arrOk_pass2Liaison (arrOk_pass2Palatal (arrOk_pass2HDel h))
  · exact h

theorem arrOk_pass3Step {n : Nat} {a : List Item} {i : Nat} (h : ArrOk a) :
    ArrOk (pass3Step n a i) := by
  unfold pass3Step
  dsimp only
  repeat' first
  | assumption
  | apply arrOk_ite
  | apply arrOk_setJong

theorem arrOk_tensWrite {a : List Item} {i : Nat} {c : Slot} (h : ArrOk a) :
    ArrOk (tensWrite a i c) := by
  unfold tensWrite
  repeat' first
  | assumption
  | apply arrOk_ite
  | apply arrOk_setCho _ (by decide)

theorem arrOk_pass4Step {o : Slot} {a : List Item} {i : Nat} (h : ArrOk a) :
    ArrOk (pass4Step o a i) := by
  unfold pass4Step
  split
  · dsimp only
    repeat' first
    | assumption
    | apply arrOk_ite
    | apply arrOk_setCho _ (by decide)
  · exact h

theorem arrOk_pass5Liquid {a : List Item} {i : Nat} {j c : Slot} (h : ArrOk a) :
    ArrOk (pass5Liquid a i j c) := by
  unfold pass5Liquid
  repeat' first
  | assumption
  | apply arrOk_ite
  | apply arrOk_setJong
  | apply arrOk_setCho _ (by decide)

theorem arrOk_pass5NasalObs {a : List Item} {i : Nat} {j c : Slot} (h : ArrOk a) :
    ArrOk (pass5NasalObs a i j c) := by
  unfold pass5NasalObs
  repeat' first
  | assumption
  | apply arrOk_ite
  | apply arrOk_setJong

theorem arrOk_pass5Step {a : List Item} {i : Nat} (h : ArrOk a) : ArrOk (pass5Step a i) := by
  unfold pass5Step
  split
  · rename_i curr nxt heq1 heq2
    dsimp only
    by_cases hc : slotIn curr.2.2 ['ㄱ', 'ㄷ', 'ㅂ', 'ㅁ', 'ㅇ'] = true ∧ nxt.1 = some 'ㄹ'
    · rw [if_pos hc]
      exact arrOk_pass5NasalObs (arrOk_setCho (arrOk_pass5Liquid h) (by decide))
    · rw [if_neg hc]
      exact arrOk_pass5NasalObs (arrOk_pass5Liquid h)
  · exact h

theorem foldl_preserve {α β : Type} (P : α → Prop) (f : α → β → α)
    (hf : ∀ a b, P a → P (f a b)) : ∀ (l : List β) (a : α), P a → P (l.foldl f a) := by
  intro l
  induction l with
  | nil => intro a ha; exact ha
  | cons x xs ih => intro a ha; exact ih _ (hf _ _ ha)

theorem itemOut_isSome {it : Item} (h : ItemOk it) : (itemOut it).isSome := by
  rcases it with c | ⟨cs, js, g⟩
  · simp [itemOut]
  · rcases h with ⟨⟨x, rfl, hx⟩, ⟨y, rfl, hy⟩⟩
    simp only [itemOut, Hangul.compose]
    have hxc : Hangul.CHOSUNG.contains x = true := List.elem_eq_true_of_mem hx
    have hyc : Hangul.JUNGSUNG.contains y = true := List.elem_eq_true_of_mem hy
    rw [if_pos (And.intro hxc hyc)]
    rfl

theorem joinItems_isSome {a : List Item} (h : ArrOk a) : (joinItems a).isSome := by
  induction a with
  | nil => simp [joinItems]
  | cons it rest ih =>
    have h1 := itemOut_isSome (h it (by simp))
    have h2 := ih (fun x hx => h x (by simp [hx]))
    unfold joinItems
    cases ho : itemOut it with
    | none => rw [ho] at h1; simp at h1
    | some c =>
      cases hj : joinItems rest with
      | none => rw [hj] at h2; simp at h2
      | some cs => simp

/-- Totality of `pronounce` on inputs whose Hangul characters are all
precomposed: every pass keeps initials in `CHOSUNG` and never writes a medial,
so recomposition succeeds at every position. -/
theorem pronounce_isSome {t : List Char}
    (h : ∀ c ∈ t, Hangul.isHangul c → Hangul.isCompleteHangul c) :
    (pronounce t).isSome := by
  unfold pronounce
  split
  · simp
  · apply joinItems_isSome
    have h0 : ArrOk (t.map charToItem) := by
      intro it hit
      rcases List.mem_map.mp hit with ⟨c, hc, rfl⟩
      exact itemOk_charToItem (h c hc)
    apply foldl_preserve ArrOk pass5Step (fun a b ha => arrOk_pass5Step ha)
    apply foldl_preserve ArrOk _ (fun a b ha => arrOk_pass4Step ha)
    apply foldl_preserve ArrOk _ (fun a b ha => arrOk_pass3Step ha)
    apply foldl_preserve ArrOk pass2Step (fun a b ha => arrOk_pass2Step ha)
    apply foldl_preserve ArrOk pass1Step (fun a b ha => arrOk_pass1Step ha)
    exact h0

end Pron

/-! ### Claims C3, C4, C5, C10 (pronunciation pipeline) -/

/-- **C3.** The claimed invariant — every Hangul final in the output of
`pronounce` lies in {∅, ㄱ, ㄴ, ㄷ, ㄹ, ㅁ, ㅂ, ㅇ} — fails on the code: the
neutralization table `JONG_NEUTRAL` has no entry for a plain ㅍ coda, so
`pronounce "앞"` returns "앞" unchanged (standard Korean is 압), and Pass 3
skips a syllable followed by a non-Hangul character, so `pronounce "옷!"`
returns "옷!" with coda ㅅ. -/
theorem claim_C3_seven_coda_failure :
    Pron.pronounceStr "앞" = some "앞" ∧
    (Hangul.decompose '앞').2.2 = some 'ㅍ' ∧
    Pron.slotIn (Hangul.decompose '앞').2.2 ['ㄱ', 'ㄴ', 'ㄷ', 'ㄹ', 'ㅁ', 'ㅂ', 'ㅇ'] = false ∧
    Pron.pronounceStr "옷!" = some "옷!" ∧
    (Hangul.decompose '옷').2.2 = some 'ㅅ' ∧
    Pron.slotIn (Hangul.decompose '옷').2.2 ['ㄱ', 'ㄴ', 'ㄷ', 'ㄹ', 'ㅁ', 'ㅂ', 'ㅇ'] = false := by
  refine ⟨by decide, by decide, by decide, by decide, by decide, by decide⟩

/-- **C4.** `pronounce` maps each conformance fixture of the specification to
its expected pronunciation. -/
theorem claim_C4_pronounce_fixtures :
    Pron.pronounceStr "밥이" = some "바비" ∧
    Pron.pronounceStr "독립" = some "동닙" ∧
    Pron.pronounceStr "값이" = some "갑씨" ∧
    Pron.pronounceStr "읽고" = some "일꼬" ∧
    Pron.pronounceStr "같이" = some "가치" ∧
    Pron.pronounceStr "앉다" = some "안따" ∧
    Pron.pronounceStr "싫어" = some "시러" ∧
    Pron.pronounceStr "놓고" = some "노코" := by
  refine ⟨by decide, by decide, by decide, by decide, by decide, by decide, by decide, by decide⟩

/-- **C5 (counterexample).** `pronounce` is not idempotent: `pronounce "놓히"`
is "녿히" (Pass 3 neutralizes the ㅎ coda to ㄷ because the following onset ㅎ
triggers no aspiration rule in Pass 1), but running `pronounce` again on "녿히"
aspirates the new ㄷ+ㅎ pair into "노티". -/
theorem claim_C5_counterexample :
    Pron.pronounceStr "놓히" = some "녿히" ∧
    Pron.pronounceStr "녿히" = some "노티" ∧ ("노티" : String) ≠ "녿히" := by
  refine ⟨by decide, by decide, by decide⟩

/-- **C5 (amended).** `pronounce` is idempotent on the conformance fixtures of
the specification: applying it a second time to each fixture output changes
nothing. -/
theorem claim_C5_amended_fixture_idempotence :
    (Pron.pronounceStr "밥이").bind Pron.pronounceStr = Pron.pronounceStr "밥이" ∧
    (Pron.pronounceStr "독립").bind Pron.pronounceStr = Pron.pronounceStr "독립" ∧
    (Pron.pronounceStr "값이").bind Pron.pronounceStr = Pron.pronounceStr "값이" ∧
    (Pron.pronounceStr "읽고").bind Pron.pronounceStr = Pron.pronounceStr "읽고" ∧
    (Pron.pronounceStr "같이").bind Pron.pronounceStr = Pron.pronounceStr "같이" ∧
    (Pron.pronounceStr "앉다").bind Pron.pronounceStr = Pron.pronounceStr "앉다" ∧
    (Pron.pronounceStr "싫어").bind Pron.pronounceStr = Pron.pronounceStr "싫어" ∧
    (Pron.pronounceStr "놓고").bind Pron.pronounceStr = Pron.pronounceStr "놓고" := by
  refine ⟨by decide, by decide, by decide, by decide, by decide, by decide, by decide, by decide⟩

/-- **C10 (counterexample).** `pronounce` is not total: on the isolated
compatibility jamo "ㄱ" — which `is_hangul` accepts but whose decomposition
`('ㄱ', '', '')` cannot be recomposed by `compose` — the recomposition join
raises (`none` here). -/
theorem claim_C10_counterexample :
    Hangul.isHangul 'ㄱ' = true ∧ Pron.pronounceStr "ㄱ" = none := by
  refine ⟨by decide, by decide⟩

/-- **C10 (amended).** `pronounce` does return a string on every input whose
Hangul-classified characters are all precomposed modern syllables: the passes
never write the medial slot and write only modern initial consonants into the
initial slot, so every item recomposes. -/
theorem claim_C10_amended_totality {t : List Char}
    (h : ∀ c ∈ t, Hangul.isHangul c → Hangul.isCompleteHangul c) :
    (Pron.pronounce t).isSome := Pron.pronounce_isSome h

/-- Witness for C10 (amended) at the concrete input "밥이!". -/
theorem claim_C10_amended_totality_witness :
    (Pron.pronounce ("밥이!".data)).isSome :=
  claim_C10_amended_totality (by decide)

/-- Python exception values surfaced by the embedded code. -/
inductive PyErr : Type
  | runtimeError (msg : String)
  | valueError (msg : String)
  | structError
  | typeError
deriving DecidableEq, Repr

deriving instance DecidableEq for Except

namespace KTrie

/-- A `(pos, lemma)` pattern stored at a trie node. -/
abbrev Pat := String × String

/-- The `Trie` of `trie.py`, represented by its sequence of `insert` calls; a
node of the object graph is named by its path from the root, so state-dependent
notions (`children`, `is_end`, `patterns`, `fail`) become functions of paths.
The third component of an entry is the stored lemma (after the `lemma or word`
defaulting). -/
structure Trie : Type where
  inserts : List (List Char × Pat)
deriving DecidableEq, Repr

/-- The empty trie (`Trie()`). -/
def emptyTrie : Trie := ⟨[]⟩

/-- `Trie.insert(word, pos, lemma)`: `lemma or word` replaces a `None` (or
falsy empty) lemma by the word itself; the node's pattern list gains the
pattern if absent (deduplication is performed by the `rawPatterns` view). -/
def insert (t : Trie) (word : List Char) (pos : String) (lemmaArg : Option String) : Trie :=
  let lem := match lemmaArg with
    | none => String.mk word
    | some l => if l = "" then String.mk word else l
  ⟨t.inserts ++ [(word, (pos, lem))]⟩

/-- Is `w` a node of the trie (a prefix of some inserted word, the root
included)? -/
def isNode (t : Trie) (w : List Char) : Bool :=
  t.inserts.any (fun e => w.isPrefixOf e.1)

/-- `node.is_end` at the node for `w`. -/
def isEnd (t : Trie) (w : List Char) : Bool :=
  t.inserts.any (fun e => e.1 = w)

/-- `node.patterns` before build: the patterns inserted at `w`, first
occurrences in insertion order (`if pattern not in node.patterns: append`). -/
def rawPatterns (t : Trie) (w : List Char) : List Pat :=
  t.inserts.foldl
    (fun acc e => if e.1 = w then (if acc.contains e.2 then acc else acc ++ [e.2]) else acc) []

/-- `char in node.children` for the node at `w`. -/
def hasChild (t : Trie) (w : List Char) (c : Char) : Bool :=
  isNode t (w ++ [c])

/-- The `while fail_node != self.root and char not in fail_node.children`
chase of `build_aho_corasick`, parameterized by the failure function for
shorter nodes; `fuel` bounds the chain (each step strictly shortens the node,
so `|w|` steps suffice). -/
def chaseAux (t : Trie) (failShorter : List Char → List Char) (c : Char) :
    Nat → List Char → List Char
  | 0, f => f
  | fuel+1, f =>
    if f ≠ [] ∧ ¬ hasChild t f c then chaseAux t failShorter c fuel (failShorter f)
    else f

/-- `build_aho_corasick` failure links, by depth recursion: the root and its
children link to the root; a deeper node `parent ++ [c]` chases `parent`'s
failure chain for a node with a `c` child (other than itself), defaulting to
the root. -/
def failAux (t : Trie) : Nat → List Char → List Char
  | 0, _ => []
  | fuel+1, w =>
    if w.length ≤ 1 then []
    else
      match w.getLast? with
      | none => []
      | some c =>
        let parent := w.dropLast
        let f := chaseAux t (failAux t fuel) c w.length (failAux t fuel parent)
        if hasChild t f c ∧ f ++ [c] ≠ w then f ++ [c] else []

/-- `node.fail` for the node at `w`, after build. -/
def failOf (t : Trie) (w : List Char) : List Char := failAux t w.length w

/-- The pattern merge of `build_aho_corasick`: append each of the failure
node's patterns if absent. -/
def mergeInto (own extra : List Pat) : List Pat :=
  extra.foldl (fun acc p => if acc.contains p then acc else acc ++ [p]) own

/-- `node.patterns` after build: BFS processes nodes by increasing depth, so a
node's failure target is fully merged before the node itself merges from it;
the merge happens only when the failure target `is_end`, and never for the
root or its direct children (they are initialized before the BFS loop). -/
def mergedAux (t : Trie) : Nat → List Char → List Pat
  | 0, w => rawPatterns t w
  | fuel+1, w =>
    if w.length ≤ 1 then rawPatterns t w
    else
      let f := failOf t w
      if isEnd t f then mergeInto (rawPatterns t w) (mergedAux t fuel f)
      else rawPatterns t w

/-- `node.patterns` for the node at `w` in the built trie. -/
def patternsOf (t : Trie) (w : List Char) : List Pat := mergedAux t w.length w

/-- `Trie._verify_pattern`: walk the word (success iff it is a node), then
check `is_end` and pattern membership. -/
def verifyPattern (t : Trie) (word : List Char) (p : Pat) : Bool :=
  if isNode t word then isEnd t word && (patternsOf t word).contains p
  else false

/-- The state-transition chase at the top of the scanning loop of
`search_all_patterns` (`while node != self.root and ch not in node.children`). -/
def gotoChase (t : Trie) (c : Char) : Nat → List Char → List Char
  | 0, node => node
  | fuel+1, node =>
    if node ≠ [] ∧ ¬ hasChild t node c then gotoChase t c fuel (failOf t node)
    else node

/-- The pattern collection of `search_all_patterns`
(`while temp_node != self.root: if temp_node.is_end and temp_node.patterns: ...`). -/
def collectChain (t : Trie) : Nat → List Char → List Pat
  | 0, _ => []
  | fuel+1, temp =>
    if temp = [] then []
    else
      (if isEnd t temp ∧ patternsOf t temp ≠ [] then patternsOf t temp else []) ++
        collectChain t fuel (failOf t temp)

/-- `for length in range(1, i + 2): ... if self._verify_pattern(...): break`:
the first length whose substring carries the pattern (the `i - length + 1 < 0`
guard is vacuous for `length ≤ i + 1`). -/
def firstLen (t : Trie) (text : List Char) (i : Nat) (p : Pat) : Option Nat :=
  ((List.range (i + 1)).map (· + 1)).find?
    (fun len => verifyPattern t ((text.drop (i + 1 - len)).take len) p)

/-- `pattern_groups[length].append(...)` on an insertion-ordered dictionary. -/
def addToGroup (groups : List (Nat × List Pat)) (len : Nat) (p : Pat) :
    List (Nat × List Pat) :=
  match groups with
  | [] => [(len, [p])]
  | (k, ps) :: rest =>
    if k = len then (k, ps ++ [p]) :: rest
    else (k, ps) :: addToGroup rest len p

/-- The scanning loop of `search_all_patterns` over the remaining characters,
`i` the current index and `node` the automaton state (a node path). Emitted
triples are `(start, end, patterns)` with `start = i - length + 1` and
`end = i + 1` (as `i + 1 - length`, which agrees with the Python integer
arithmetic for every `length ≤ i + 1`). -/
def searchGo (t : Trie) (text : List Char) :
    List Char → Nat → List Char → List (Nat × Nat × List Pat)
  | [], _, _ => []
  | c :: rs, i, node =>
    let node1 := gotoChase t c (node.length + 1) node
    if hasChild t node1 c then
      let node2 := node1 ++ [c]
      let found := collectChain t (node2.length + 1) node2
      let groups := found.foldl
        (fun gs p =>
          match firstLen t text i p with
          | some len => addToGroup gs len p
          | none => gs) []
      (groups.map (fun g => (i + 1 - g.1, i + 1, g.2))) ++ searchGo t text rs (i+1) node2
    else
      searchGo t text rs (i+1) []

/-- `Trie.search_all_patterns` (the LRU cache is transparent; this is the cold
path after `build_aho_corasick`). -/
def searchAllPatterns (t : Trie) (text : List Char) : List (Nat × Nat × List Pat) :=
  searchGo t text text 0 []

/-- `Trie.exists`. -/
def existsWord (t : Trie) (w : List Char) : Bool := isEnd t w

end KTrie

namespace KTrie

/-! ### Soundness and ordering of `search_all_patterns` -/

/-- The substring `text[i - length + 1 : i + 1]` (written `i + 1 - length`,
which matches the Python arithmetic whenever `length ≤ i + 1`). -/
def subAt (text : List Char) (i len : Nat) : List Char :=
  (text.drop (i + 1 - len)).take len

theorem verifyPattern_ok {t : Trie} {w : List Char} {p : Pat}
    (h : verifyPattern t w p = true) :
    isEnd t w = true ∧ (patternsOf t w).contains p = true := by
  unfold verifyPattern at h
  split at h
  · simpa only [Bool.and_eq_true] using h
  · exact absurd h (by simp)

theorem firstLen_ok {t : Trie} {text : List Char} {i : Nat} {p : Pat} {len : Nat}
    (h : firstLen t text i p = some len) :
    1 ≤ len ∧ len ≤ i + 1 ∧ verifyPattern t (subAt text i len) p = true := by
  unfold firstLen at h
  have hp := List.find?_some h
  have hm := List.mem_of_find?_eq_some h
  rcases List.mem_map.mp hm with ⟨k, hk, rfl⟩
  have hk2 := List.mem_range.mp hk
  exact ⟨Nat.succ_le_succ (Nat.zero_le k), Nat.succ_le_succ (Nat.le_of_lt_succ hk2), hp⟩

/-- The invariant carried by every `pattern_groups` entry at position `i`. -/
def GroupOk (t : Trie) (text : List Char) (i : Nat) (g : Nat × List Pat) : Prop :=
  1 ≤ g.1 ∧ g.1 ≤ i + 1 ∧ g.2 ≠ [] ∧
    ∀ p ∈ g.2, verifyPattern t (subAt text i g.1) p = true

theorem addToGroup_ok {t : Trie} {text : List Char} {i : Nat}
    {gs : List (Nat × List Pat)} {len : Nat} {p : Pat}
    (hgs : ∀ g ∈ gs, GroupOk t text i g)
    (h1 : 1 ≤ len) (h2 : len ≤ i + 1)
    (hv : verifyPattern t (subAt text i len) p = true) :
    ∀ g ∈ addToGroup gs len p, GroupOk t text i g := by
  induction gs with
  | nil =>
    intro g hg
    simp only [addToGroup, List.mem_singleton] at hg
    subst hg
    refine ⟨h1, h2, by simp, ?_⟩
    intro q hq
    simp only [List.mem_singleton] at hq
    subst hq
    exact hv
  | cons e rest ih =>
    intro g hg
    obtain ⟨k, ps⟩ := e
    simp only [addToGroup] at hg
    split at hg
    · next hk =>
      subst hk
      rcases List.mem_cons.mp hg with rfl | hg2
      · have he := hgs (k, ps) (List.mem_cons_self _ _)
        refine ⟨he.1, he.2.1, by simp, ?_⟩
        intro q hq
        rcases List.mem_append.mp hq with hq1 | hq2
        · exact he.2.2.2 q hq1
        · simp only [List.mem_singleton] at hq2
          subst hq2
          exact hv
      · exact hgs g (List.mem_cons_of_mem _ hg2)
    · rcases List.mem_cons.mp hg with rfl | hg2
      · exact hgs _ (List.mem_cons_self _ _)
      · exact ih (fun g hg => hgs g (List.mem_cons_of_mem _ hg)) g hg2

theorem groupsFold_ok {t : Trie} {text : List Char} {i : Nat} (found : List Pat) :
    ∀ (gs0 : List (Nat × List Pat)), (∀ g ∈ gs0, GroupOk t text i g) →
    ∀ g ∈ found.foldl
      (fun gs p =>
        match firstLen t text i p with
        | some len => addToGroup gs len p
        | none => gs) gs0,
      GroupOk t text i g := by
  induction found with
  | nil => intro gs0 h0; simpa using h0
  | cons p rest ih =>
    intro gs0 h0
    simp only [List.foldl_cons]
    apply ih
    cases hf : firstLen t text i p with
    | none => simpa [hf] using h0
    | some len =>
      obtain ⟨h1, h2, hv⟩ := firstLen_ok hf
      simpa [hf] using addToGroup_ok h0 h1 h2 hv

/-- Every triple emitted by the scanning loop ends at or after `i + 1`. -/
theorem searchGo_end_lb (t : Trie) (text : List Char) :
    ∀ (rest : List Char) (i : Nat) (node : List Char),
    ∀ tr ∈ searchGo t text rest i node, i + 1 ≤ tr.2.1 := by
  intro rest
  induction rest with
  | nil => intro i node tr htr; simp [searchGo] at htr
  | cons c rs ih =>
    intro i node tr htr
    simp only [searchGo] at htr
    split at htr
    · rcases List.mem_append.mp htr with hb | hr
      · rcases List.mem_map.mp hb with ⟨g, _, rfl⟩
        exact Nat.le_refl _
      · exact Nat.le_of_succ_le (ih (i+1) _ tr hr)
    · exact Nat.le_of_succ_le (ih (i+1) _ tr htr)

/-- Soundness of the emitted triples: every `(start, end, ps)` names a key
`text[start .. end]` of the trie, patterns from the key's built pattern list. -/
theorem searchGo_sound (t : Trie) (text : List Char) :
    ∀ (rest : List Char) (i : Nat) (node : List Char),
    i + rest.length = text.length →
    ∀ tr ∈ searchGo t text rest i node,
      tr.1 < tr.2.1 ∧ tr.2.1 ≤ text.length ∧
      isEnd t ((text.drop tr.1).take (tr.2.1 - tr.1)) = true ∧
      ∀ p ∈ tr.2.2, ((patternsOf t ((text.drop tr.1).take (tr.2.1 - tr.1))).contains p) = true := by
  intro rest
  induction rest with
  | nil => intro i node _ tr htr; simp [searchGo] at htr
  | cons c rs ih =>
    intro i node hlen tr htr
    have hi : i + 1 ≤ text.length := by
      simp only [List.length_cons] at hlen
      omega
    simp only [searchGo] at htr
    split at htr
    · rcases List.mem_append.mp htr with hb | hr
      · rcases List.mem_map.mp hb with ⟨g, hg, rfl⟩
        have hok := @groupsFold_ok t text i _ []
          (by intro g hg; simp at hg) g hg
        obtain ⟨h1, h2, hne, hv⟩ := hok
        have hstart : i + 1 - g.1 < i + 1 := by omega
        have hsub : (i + 1) - (i + 1 - g.1) = g.1 := by omega
        refine ⟨hstart, hi, ?_, ?_⟩
        · rw [hsub]
          obtain ⟨p, hp⟩ := List.exists_mem_of_ne_nil _ hne
          exact (verifyPattern_ok (hv p hp)).1
        · intro p hp
          rw [hsub]
          exact (verifyPattern_ok (hv p hp)).2
      · apply ih (i+1) _ _ tr hr
        simp only [List.length_cons] at hlen
        omega
    · apply ih (i+1) _ _ tr htr
      simp only [List.length_cons] at hlen
      omega

end KTrie

namespace KTrie

/-- Emissions are grouped by end position in ascending order. -/
theorem searchGo_end_sorted (t : Trie) (text : List Char) :
    ∀ (rest : List Char) (i : Nat) (node : List Char),
    (searchGo t text rest i node).Pairwise (fun x y => x.2.1 ≤ y.2.1) := by
  intro rest
  induction rest with
  | nil => intro i node; simp [searchGo]
  | cons c rs ih =>
    intro i node
    simp only [searchGo]
    split
    · rw [List.pairwise_append]
      refine ⟨?_, ih (i+1) _, ?_⟩
      · rw [List.pairwise_map]
        exact List.Pairwise.imp (fun _ => Nat.le_refl _)
          (List.pairwise_iff_forall_sublist.mpr (fun _ => trivial))
      · intro x hx y hy
        rcases List.mem_map.mp hx with ⟨g, _, rfl⟩
        exact Nat.le_of_succ_le (searchGo_end_lb t text rs (i+1) _ y hy)
    · exact ih (i+1) _

end KTrie

/-- **C2 (counterexample).** With the trie holding keys "b" and "ab" that share
the pattern `("N", "x")`, scanning "ab" emits no triple for the key pair
`(0, 2)` even though "ab" is a key — the pattern is attributed only to the
shortest suffix key — and the single emitted triple carries the pattern twice
(it is collected once from the merged pattern list of "ab" and once from "b").
With distinct patterns on "b"/"ab", the two triples at end position 2 come out
with lengths descending, not ascending. -/
theorem claim_C2_counterexample :
    (let t := KTrie.insert (KTrie.insert KTrie.emptyTrie "b".data "N" (some "x"))
      "ab".data "N" (some "x")
     KTrie.isEnd t "ab".data = true ∧
     KTrie.searchAllPatterns t "ab".data = [(1, 2, [("N", "x"), ("N", "x")])] ∧
     ∀ tr ∈ KTrie.searchAllPatterns t "ab".data, ¬ tr.1 = 0) ∧
    (let t2 := KTrie.insert (KTrie.insert KTrie.emptyTrie "b".data "N" none)
      "ab".data "M" none
     KTrie.searchAllPatterns t2 "ab".data =
       [(0, 2, [("M", "ab")]), (1, 2, [("N", "b"), ("N", "b")])]) := by
  refine ⟨⟨by decide, by decide, by decide⟩, by decide⟩

/-- **C2 (amended).** Soundness and end-ordering of `search_all_patterns`: each
emitted triple `(start, end, ps)` satisfies `start < end ≤ |text|`,
`text[start..end]` is a key of the trie, and every pattern of `ps` lies in that
key's pattern list as augmented by `build_aho_corasick`; emissions are grouped
by end position ascending. (A key may be omitted when each of its patterns
verifies at a shorter suffix key ending at the same position; pattern lists may
repeat a pattern; within an end position, lengths follow attribution order.) -/
theorem claim_C2_amended (t : KTrie.Trie) (text : List Char) :
    (∀ tr ∈ KTrie.searchAllPatterns t text,
      tr.1 < tr.2.1 ∧ tr.2.1 ≤ text.length ∧
      KTrie.isEnd t ((text.drop tr.1).take (tr.2.1 - tr.1)) = true ∧
      ∀ p ∈ tr.2.2,
        ((KTrie.patternsOf t ((text.drop tr.1).take (tr.2.1 - tr.1))).contains p) = true) ∧
    (KTrie.searchAllPatterns t text).Pairwise (fun x y => x.2.1 ≤ y.2.1) := by
  constructor
  · exact KTrie.searchGo_sound t text text 0 [] (by simp)
  · exact KTrie.searchGo_end_sorted t text text 0 []

namespace Stem

/-- `morph.Morph`: surface form, POS tag, lemma, confidence score, span, and
sub-morphemes for composites. The score field is only ever set to the literals
1.0 (default) and 0.5 (OOV), so it is carried as a rational exactly. -/
inductive Morph : Type
  | mk (surface : List Char) (pos : String) (lem : String) (score : ℚ)
      (start : Nat) (stop : Nat) (subMorphs : List Morph)

def Morph.surface : Morph → List Char
  | .mk s _ _ _ _ _ _ => s

def Morph.pos : Morph → String
  | .mk _ p _ _ _ _ _ => p

def Morph.lem : Morph → String
  | .mk _ _ l _ _ _ _ => l

def Morph.score : Morph → ℚ
  | .mk _ _ _ sc _ _ _ => sc

def Morph.subMorphs : Morph → List Morph
  | .mk _ _ _ _ _ _ subs => subs

/-- `Morph(surface, pos, lemma)` with the dataclass defaults. -/
def mkMorph (surface : List Char) (pos : String) (lem : String) : Morph :=
  .mk surface pos lem 1 0 0 []

/-- `Morph(surface, pos, lemma, score)` with explicit score. -/
def mkMorphScored (surface : List Char) (pos : String) (lem : String) (score : ℚ) : Morph :=
  .mk surface pos lem score 0 0 []

/-- `Morph(surface, pos, lemma, sub_morphs=...)`. -/
def mkMorphSubs (surface : List Char) (pos : String) (lem : String)
    (subs : List Morph) : Morph :=
  .mk surface pos lem 1 0 0 subs

/-- `"".join(w for w, p in tuple_morphs)` in `train_eojeol`. -/
def reconstructedOf (morphs : List Morph) : List Char :=
  morphs.foldl (fun acc m => acc ++ m.surface) []

/-- `"+".join(p for w, p in tuple_morphs)`. -/
def compoundPosOf (morphs : List Morph) : String :=
  String.intercalate "+" (morphs.map Morph.pos)

/-- `"+".join(w for w, p in tuple_morphs)` — the *surfaces*, joined. -/
def compoundLemmaOf (morphs : List Morph) : String :=
  String.intercalate "+" (morphs.map (fun m => String.mk m.surface))

/-- `MorphAnalyzer.train_eojeol`: the morphemes are reduced to
`(m.surface, m.pos)` tuples, each inserted as `(word, pos, word)` — the
morpheme's own lemma field is not consulted — and when the concatenated
surfaces differ from the input surface a composite entry is inserted whose
lemma is the `+`-joined *surfaces*. -/
def trainEojeol (trie : KTrie.Trie) (surface : List Char) (morphs : List Morph) :
    KTrie.Trie :=
  let trie := morphs.foldl
    (fun tr m => KTrie.insert tr m.surface m.pos (some (String.mk m.surface))) trie
  if surface ≠ reconstructedOf morphs then
    KTrie.insert trie surface (compoundPosOf morphs) (some (compoundLemmaOf morphs))
  else trie

end Stem

namespace DATrie

/-- The mutable state of `trie_da.DoubleArrayTrie` that `insert` can touch
(the double arrays, value/fail arrays and intern tables are carried so that
"the trie's contents are unchanged" is meaningful). -/
structure DoubleArrayTrie : Type where
  base : List Int
  check : List Int
  value : List (Option (List (Nat × Nat)))
  fail : List Nat
  posFst : List String
  lemmaFst : List String
  buildData : List (List Char × String × String)
  built : Bool
deriving DecidableEq, Repr

/-- `DoubleArrayTrie.insert`: raises
`RuntimeError("Trie already built. Cannot insert after build.")` when the build
has been finalized — before touching `_build_data`, so the state paired with
the error is the original one — and otherwise appends `(word, pos, lemma or
word)` to the pending build data. -/
def insertDA (t : DoubleArrayTrie) (word : List Char) (pos : String)
    (lemmaArg : Option String) : DoubleArrayTrie × Option PyErr :=
  if t.built then
    (t, some (.runtimeError "Trie already built. Cannot insert after build."))
  else
    let lem := match lemmaArg with
      | none => String.mk word
      | some l => if l = "" then String.mk word else l
    ({ t with buildData := t.buildData ++ [(word, pos, lem)] }, none)

end DATrie

/-- **C7.** Once a `DoubleArrayTrie` build has been declared final
(`_built = True`), every `insert` call fails with the invariant-violation
error (realized as a `RuntimeError`) and leaves the trie's contents — build
data, arrays, intern tables — exactly unchanged. -/
theorem claim_C7_insert_after_build (t : DATrie.DoubleArrayTrie) (word : List Char)
    (pos : String) (lemmaArg : Option String) (h : t.built = true) :
    DATrie.insertDA t word pos lemmaArg =
      (t, some (.runtimeError "Trie already built. Cannot insert after build.")) := by
  unfold DATrie.insertDA
  rw [if_pos h]

/-- Witness for C7 at a concrete finalized trie. -/
theorem claim_C7_insert_after_build_witness :
    DATrie.insertDA ⟨[], [], [], [], [], [], [], true⟩ "가".data "NNG" none =
      (⟨[], [], [], [], [], [], [], true⟩,
        some (.runtimeError "Trie already built. Cannot insert after build.")) :=
  claim_C7_insert_after_build _ _ _ _ rfl

namespace KTrie

/-- Membership in the deduplicating pattern fold. -/
theorem mem_rawFold (w : List Char) (l : List (List Char × Pat)) :
    ∀ (acc : List Pat) (p : Pat),
    (p ∈ l.foldl
      (fun acc e => if e.1 = w then (if acc.contains e.2 then acc else acc ++ [e.2]) else acc)
      acc) ↔
    p ∈ acc ∨ (w, p) ∈ l := by
  induction l with
  | nil => simp
  | cons e l ih =>
    intro acc p
    simp only [List.foldl_cons]
    rw [ih]
    have hstep : (p ∈ if e.1 = w then (if acc.contains e.2 then acc else acc ++ [e.2]) else acc)
        ↔ p ∈ acc ∨ (w, p) = e := by
      by_cases he : e.1 = w
      · by_cases hc : acc.contains e.2
        · rw [if_pos he, if_pos hc]
          constructor
          · exact Or.inl
          · rintro (hp | hp)
            · exact hp
            · have : p = e.2 := by
                have := congrArg Prod.snd hp
                simpa using this
              subst this
              exact List.mem_of_elem_eq_true hc
        · rw [if_pos he, if_neg hc, List.mem_append]
          constructor
          · rintro (hp | hp)
            · exact Or.inl hp
            · right
              simp only [List.mem_singleton] at hp
              subst hp
              exact Prod.ext (he.symm) rfl
          · rintro (hp | hp)
            · exact Or.inl hp
            · right
              simp only [List.mem_singleton]
              exact (congrArg Prod.snd hp).symm ▸ rfl
      · rw [if_neg he]
        constructor
        · exact Or.inl
        · rintro (hp | hp)
          · exact hp
          · exact absurd (congrArg Prod.fst hp) (by simpa using fun hh => he hh.symm)
    rw [hstep, List.mem_cons]
    tauto

/-- `p ∈ node(w).patterns` (before build) iff some insertion put it there. -/
theorem mem_rawPatterns_iff {t : Trie} {w : List Char} {p : Pat} :
    p ∈ rawPatterns t w ↔ (w, p) ∈ t.inserts := by
  unfold rawPatterns
  rw [mem_rawFold]
  simp

end KTrie

namespace Stem

/-- The insertions performed by the per-morpheme loop of `train_eojeol`. -/
theorem trainEojeol_fold_inserts (trie : KTrie.Trie) (morphs : List Morph) :
    (morphs.foldl
      (fun tr m => KTrie.insert tr m.surface m.pos (some (String.mk m.surface))) trie).inserts =
    trie.inserts ++ morphs.map (fun m => (m.surface, (m.pos, String.mk m.surface))) := by
  induction morphs generalizing trie with
  | nil => simp
  | cons m l ih =>
    simp only [List.foldl_cons, List.map_cons]
    rw [ih]
    simp [KTrie.insert]

end Stem

/-- **C6 (counterexample).** `train_eojeol` does not insert the morpheme's
lemma: for a morpheme with surface 가, POS VV and lemma 가다, the trie entry
stored at 가 is `(VV, 가)` — the surface doubles as the lemma — and
`(VV, 가다)` is nowhere inserted. -/
theorem claim_C6_counterexample :
    KTrie.rawPatterns
      (Stem.trainEojeol KTrie.emptyTrie "가".data [Stem.mkMorph "가".data "VV" "가다"])
      "가".data = [("VV", "가")] ∧
    ("VV", "가다") ∉ KTrie.rawPatterns
      (Stem.trainEojeol KTrie.emptyTrie "가".data [Stem.mkMorph "가".data "VV" "가다"])
      "가".data := by
  refine ⟨by decide, by decide⟩

/-- **C6 (amended).** `train_eojeol(surface, morphs)` inserts each morpheme's
`(surface, POS, surface)` — the surface doubling as the stored lemma — and,
exactly when the concatenation of the morphemes' surfaces differs from the
input surface, additionally inserts one composite entry keyed by the input
surface whose POS is the `+`-joined POS tags and whose lemma is the `+`-joined
morpheme *surfaces* (falling back to the input surface if that join is empty). -/
theorem claim_C6_amended (trie : KTrie.Trie) (surface : List Char)
    (morphs : List Stem.Morph) :
    (∀ m ∈ morphs,
      (m.pos, String.mk m.surface) ∈
        KTrie.rawPatterns (Stem.trainEojeol trie surface morphs) m.surface) ∧
    (surface ≠ Stem.reconstructedOf morphs →
      (Stem.compoundPosOf morphs,
        if Stem.compoundLemmaOf morphs = "" then String.mk surface
        else Stem.compoundLemmaOf morphs) ∈
        KTrie.rawPatterns (Stem.trainEojeol trie surface morphs) surface) ∧
    (surface = Stem.reconstructedOf morphs →
      ∀ p ∈ KTrie.rawPatterns (Stem.trainEojeol trie surface morphs) surface,
        p ∈ KTrie.rawPatterns trie surface ∨
          ∃ m ∈ morphs, m.surface = surface ∧ p = (m.pos, String.mk m.surface)) := by
  refine ⟨?_, ?_, ?_⟩
  · intro m hm
    rw [KTrie.mem_rawPatterns_iff]
    have hbase : (m.surface, (m.pos, String.mk m.surface)) ∈
        (morphs.foldl
          (fun tr m => KTrie.insert tr m.surface m.pos (some (String.mk m.surface)))
          trie).inserts := by
      rw [Stem.trainEojeol_fold_inserts]
      exact List.mem_append.mpr (Or.inr (List.mem_map.mpr ⟨m, hm, rfl⟩))
    unfold Stem.trainEojeol
    split
    · simp only [KTrie.insert, List.mem_append]
      exact Or.inl hbase
    · exact hbase
  · intro hne
    rw [KTrie.mem_rawPatterns_iff]
    unfold Stem.trainEojeol
    rw [if_pos hne]
    simp only [KTrie.insert, Stem.trainEojeol_fold_inserts, List.mem_append]
    right
    simp
  · intro heq p hp
    rw [KTrie.mem_rawPatterns_iff] at hp
    unfold Stem.trainEojeol at hp
    rw [if_neg (by simpa using heq)] at hp
    rw [Stem.trainEojeol_fold_inserts, List.mem_append] at hp
    rcases hp with hp | hp
    · left
      exact KTrie.mem_rawPatterns_iff.mpr hp
    · right
      rcases List.mem_map.mp hp with ⟨m, hm, hme⟩
      refine ⟨m, hm, ?_, ?_⟩
      · exact congrArg Prod.fst hme
      · exact (congrArg Prod.snd hme).symm

/-- Witness for C6 (amended) at the contraction 갔 → 가/VV + 았/EP. -/
theorem claim_C6_amended_witness :
    ("VV", "가") ∈
      KTrie.rawPatterns
        (Stem.trainEojeol KTrie.emptyTrie "갔".data
          [Stem.mkMorph "가".data "VV" "가", Stem.mkMorph "았".data "EP" "았"])
        "가".data ∧
    ("VV+EP",
      if Stem.compoundLemmaOf
          [Stem.mkMorph "가".data "VV" "가", Stem.mkMorph "았".data "EP" "았"] = ""
        then String.mk "갔".data
        else Stem.compoundLemmaOf
          [Stem.mkMorph "가".data "VV" "가", Stem.mkMorph "았".data "EP" "았"]) ∈
      KTrie.rawPatterns
        (Stem.trainEojeol KTrie.emptyTrie "갔".data
          [Stem.mkMorph "가".data "VV" "가", Stem.mkMorph "았".data "EP" "았"])
        "갔".data := by
  have h := claim_C6_amended KTrie.emptyTrie "갔".data
    [Stem.mkMorph "가".data "VV" "가", Stem.mkMorph "았".data "EP" "았"]
  constructor
  · have h1 := h.1 (Stem.mkMorph "가".data "VV" "가") (by simp)
    simpa [Stem.mkMorph, Stem.Morph.pos, Stem.Morph.surface] using h1
  · have h2 := h.2.1 (by decide)
    simpa [Stem.compoundPosOf, Stem.mkMorph, Stem.Morph.pos] using h2

namespace KG

/-- A binary file opened for reading: contents and cursor. `read(k)` returns
the available bytes (possibly fewer than `k`) and advances the cursor by the
number actually read, as Python file objects do. -/
structure FH : Type where
  bytes : List Nat
  pos : Nat
deriving DecidableEq, Repr

/-- `f.read(k)`. -/
def readF (f : FH) (k : Nat) : List Nat × FH :=
  let chunk := (f.bytes.drop f.pos).take k
  (chunk, ⟨f.bytes, f.pos + chunk.length⟩)

/-- `struct.unpack('<H', bs)`: fails (`struct.error`) unless exactly 2 bytes. -/
def unpackH (bs : List Nat) : Except PyErr Nat :=
  match bs with
  | [b0, b1] => .ok (b0 + 256 * b1)
  | _ => .error .structError

/-- `struct.unpack('<BB', bs)`. -/
def unpackBB (bs : List Nat) : Except PyErr (Nat × Nat) :=
  match bs with
  | [b0, b1] => .ok (b0, b1)
  | _ => .error .structError

/-- `struct.unpack('<Q', bs)`: fails unless exactly 8 bytes. -/
def unpackQ (bs : List Nat) : Except PyErr Nat :=
  match bs with
  | [b0, b1, b2, b3, b4, b5, b6, b7] =>
    .ok (b0 + 256 * b1 + 65536 * b2 + 16777216 * b3 + 4294967296 * b4 +
      1099511627776 * b5 + 281474976710656 * b6 + 72057594037927936 * b7)
  | _ => .error .structError

/-- `struct.pack('<H', n)`: fails for values out of the 16-bit range. -/
def packH (n : Nat) : Except PyErr (List Nat) :=
  if n < 65536 then .ok [n % 256, n / 256] else .error .structError

/-- `struct.pack('<Q', n)`. -/
def packQ (n : Nat) : Except PyErr (List Nat) :=
  if n < 18446744073709551616 then
    .ok [n % 256, n / 256 % 256, n / 65536 % 256, n / 16777216 % 256,
      n / 4294967296 % 256, n / 1099511627776 % 256, n / 281474976710656 % 256,
      n / 72057594037927936 % 256]
  else .error .structError

/-- `KGFormat.MAGIC = b'KLGM'`. -/
def MAGIC : List Nat := [0x4B, 0x4C, 0x47, 0x4D]

/-- The file-table loop of `KGFormat.decode`: for each file, 2-byte name
length, raw name bytes (the UTF-8 decode of a valid name is the identity on
its byte sequence, so names are carried as bytes), 8-byte size, 8-byte offset. -/
def readEntries : FH → Nat → Except PyErr (List (List Nat × Nat × Nat) × FH)
  | f, 0 => .ok ([], f)
  | f, n+1 =>
    let nb := readF f 2
    match unpackH nb.1 with
    | .error e => .error e
    | .ok nameLen =>
      let nm := readF nb.2 nameLen
      let sb := readF nm.2 8
      match unpackQ sb.1 with
      | .error e => .error e
      | .ok size =>
        let ob := readF sb.2 8
        match unpackQ ob.1 with
        | .error e => .error e
        | .ok offset =>
          match readEntries ob.2 n with
          | .error e => .error e
          | .ok (rest, f2) => .ok ((nm.1, size, offset) :: rest, f2)

/-- `KGFormat.decode` (with `_read_header` inlined in reading order: the
version and file-count unpacks run, and can raise `struct.error`, before the
magic comparison). Each entry's data is then read by `seek(offset)` /
`read(size)`, which silently truncates at end of file. -/
def decode (bytes : List Nat) : Except PyErr (List (List Nat × List Nat)) :=
  let f : FH := ⟨bytes, 0⟩
  let mg := readF f 4
  let vb := readF mg.2 2
  match unpackBB vb.1 with
  | .error e => .error e
  | .ok _ =>
    let cb := readF vb.2 2
    match unpackH cb.1 with
    | .error e => .error e
    | .ok cnt =>
      let rb := readF cb.2 8
      if mg.1 ≠ MAGIC then .error (.valueError "Invalid .kg file: bad magic number")
      else
        match readEntries rb.2 cnt with
        | .error e => .error e
        | .ok (entries, _) =>
          .ok (entries.map (fun e => (e.1, (bytes.drop e.2.2).take e.2.1)))

/-- The file-table writer of `KGFormat.encode`, threading the running data
offset. -/
def encTable : List (List Nat × List Nat) → Nat → Except PyErr (List Nat)
  | [], _ => .ok []
  | (name, data) :: rest, cur =>
    match packH name.length with
    | .error e => .error e
    | .ok nb =>
      match packQ data.length with
      | .error e => .error e
      | .ok sb =>
        match packQ cur with
        | .error e => .error e
        | .ok ob =>
          match encTable rest (cur + data.length) with
          | .error e => .error e
          | .ok tl => .ok (nb ++ name ++ sb ++ ob ++ tl)

/-- `KGFormat.encode` (the bytes written to the output file; path mangling is
I/O and out of scope). Header: magic, version (0, 1), 2-byte file count,
8 reserved zero bytes; then the file table; then the concatenated data. -/
def encode (files : List (List Nat × List Nat)) : Except PyErr (List Nat) :=
  match packH files.length with
  | .error e => .error e
  | .ok cntB =>
    let tableSize := (files.map (fun fl => 2 + fl.1.length + 8 + 8)).sum
    match encTable files (16 + tableSize) with
    | .error e => .error e
    | .ok table =>
      .ok (MAGIC ++ [0, 1] ++ cntB ++ List.replicate 8 0 ++ table ++
        (files.map (fun fl => fl.2)).flatten)

end KG

namespace KG

theorem packH_shape {n : Nat} {nb : List Nat} (h : packH n = .ok nb) :
    nb = [n % 256, n / 256] ∧ n < 65536 := by
  unfold packH at h
  split at h
  · next hn => exact ⟨(Except.ok.injEq _ _).mp h.symm, hn⟩
  · exact absurd h (by simp)

theorem unpackH_packH {n : Nat} {nb : List Nat} (h : packH n = .ok nb) :
    unpackH nb = .ok n := by
  obtain ⟨rfl, hn⟩ := packH_shape h
  show Except.ok (n % 256 + 256 * (n / 256)) = Except.ok n
  exact congrArg Except.ok (Nat.mod_add_div n 256)

theorem packQ_shape {n : Nat} {nb : List Nat} (h : packQ n = .ok nb) :
    nb = [n % 256, n / 256 % 256, n / 65536 % 256, n / 16777216 % 256,
      n / 4294967296 % 256, n / 1099511627776 % 256, n / 281474976710656 % 256,
      n / 72057594037927936 % 256] ∧
    n < 18446744073709551616 := by
  unfold packQ at h
  split at h
  · next hn => exact ⟨(Except.ok.injEq _ _).mp h.symm, hn⟩
  · exact absurd h (by simp)

theorem unpackQ_packQ {n : Nat} {nb : List Nat} (h : packQ n = .ok nb) :
    unpackQ nb = .ok n := by
  obtain ⟨rfl, hn⟩ := packQ_shape h
  show Except.ok _ = Except.ok n
  exact congrArg Except.ok (by omega)

theorem readF_at {bs u v w : List Nat} {p k : Nat} (hbs : bs = u ++ v ++ w)
    (hp : p = u.length) (hk : k = v.length) :
    readF ⟨bs, p⟩ k = (v, ⟨bs, p + k⟩) := by
  subst hbs hp hk
  unfold readF
  rw [List.append_assoc, List.drop_left, List.take_left]

/-- The `(name, size, offset)` table rows that `encode` declares, with the
running data offset. -/
def entriesSpec : List (List Nat × List Nat) → Nat → List (List Nat × Nat × Nat)
  | [], _ => []
  | (name, data) :: rest, cur => (name, data.length, cur) :: entriesSpec rest (cur + data.length)

theorem encTable_length : ∀ {files : List (List Nat × List Nat)} {cur : Nat} {table : List Nat},
    encTable files cur = .ok table →
    table.length = (files.map (fun fl => 2 + fl.1.length + 8 + 8)).sum := by
  intro files
  induction files with
  | nil =>
    intro cur table h
    unfold encTable at h
    simp only [Except.ok.injEq] at h
    subst h
    simp
  | cons fl rest ih =>
    intro cur table h
    obtain ⟨name, data⟩ := fl
    unfold encTable at h
    split at h
    · exact absurd h (by simp)
    · next nb hnb =>
      split at h
      · exact absurd h (by simp)
      · next sb hsb =>
        split at h
        · exact absurd h (by simp)
        · next ob hob =>
          split at h
          · exact absurd h (by simp)
          · next tl htl =>
            simp only [Except.ok.injEq] at h
            subst h
            obtain ⟨rfl, _⟩ := packH_shape hnb
            obtain ⟨rfl, _⟩ := packQ_shape hsb
            obtain ⟨rfl, _⟩ := packQ_shape hob
            have := ih htl
            simp [this]
            omega

theorem readEntries_table :
    ∀ (files : List (List Nat × List Nat)) (cur : Nat) (table : List Nat)
      (pre post : List Nat),
    encTable files cur = .ok table →
    readEntries ⟨pre ++ table ++ post, pre.length⟩ files.length =
      .ok (entriesSpec files cur, ⟨pre ++ table ++ post, pre.length + table.length⟩) := by
  intro files
  induction files with
  | nil =>
    intro cur table pre post h
    unfold encTable at h
    simp only [Except.ok.injEq] at h
    subst h
    simp [readEntries, entriesSpec]
  | cons fl rest ih =>
    intro cur table pre post h
    obtain ⟨name, data⟩ := fl
    unfold encTable at h
    split at h
    · exact absurd h (by simp)
    · next nb hnb =>
      split at h
      · exact absurd h (by simp)
      · next sb hsb =>
        split at h
        · exact absurd h (by simp)
        · next ob hob =>
          split at h
          · exact absurd h (by simp)
          · next tl htl =>
            simp only [Except.ok.injEq] at h
            subst h
            have hnb2 := packH_shape hnb
            have hsb2 := packQ_shape hsb
            have hob2 := packQ_shape hob
            have hnbl : nb.length = 2 := by rw [hnb2.1]; rfl
            have hsbl : sb.length = 8 := by rw [hsb2.1]; rfl
            have hobl : ob.length = 8 := by rw [hob2.1]; rfl
            show readEntries _ (rest.length + 1) = _
            unfold readEntries
            rw [readF_at (u := pre) (v := nb)
              (w := name ++ sb ++ ob ++ tl ++ post) (by simp) rfl hnbl.symm]
            dsimp only
            rw [unpackH_packH hnb]
            dsimp only
            rw [show pre.length + 2 = (pre ++ nb).length by
              simp only [List.length_append, hnbl]]
            rw [readF_at (u := pre ++ nb) (v := name)
              (w := sb ++ ob ++ tl ++ post) (by simp) rfl rfl]
            dsimp only
            rw [show (pre ++ nb).length + name.length = (pre ++ nb ++ name).length by
              simp only [List.length_append]]
            rw [readF_at (u := pre ++ nb ++ name) (v := sb)
              (w := ob ++ tl ++ post) (by simp) rfl hsbl.symm]
            dsimp only
            rw [unpackQ_packQ hsb]
            dsimp only
            rw [show (pre ++ nb ++ name).length + 8 = (pre ++ nb ++ name ++ sb).length by
              simp only [List.length_append, hsbl]]
            rw [readF_at (u := pre ++ nb ++ name ++ sb) (v := ob)
              (w := tl ++ post) (by simp) rfl hobl.symm]
            dsimp only
            rw [unpackQ_packQ hob]
            dsimp only
            rw [show (pre ++ nb ++ name ++ sb).length + 8 =
              (pre ++ nb ++ name ++ sb ++ ob).length by
              simp only [List.length_append, hobl]]
            rw [show pre ++ (nb ++ name ++ sb ++ ob ++ tl) ++ post =
              (pre ++ nb ++ name ++ sb ++ ob) ++ tl ++ post by simp]
            rw [ih _ _ _ _ htl]
            have hpos : (pre ++ nb ++ name ++ sb ++ ob).length + tl.length =
                pre.length + (nb ++ name ++ sb ++ ob ++ tl).length := by
              simp only [List.length_append]
              omega
            rw [hpos]
            rfl

theorem extract_flatten :
    ∀ (files : List (List Nat × List Nat)) (bs base : List Nat),
    bs = base ++ (files.map (fun fl => fl.2)).flatten →
    (entriesSpec files base.length).map
      (fun e => (e.1, (bs.drop e.2.2).take e.2.1)) = files := by
  intro files
  induction files with
  | nil => intro bs base h; simp [entriesSpec]
  | cons fl rest ih =>
    intro bs base h
    obtain ⟨name, data⟩ := fl
    simp only [List.map_cons, List.flatten_cons] at h
    simp only [entriesSpec, List.map_cons]
    have hhead : (bs.drop base.length).take data.length = data := by
      rw [h, List.drop_left]
      exact List.take_left data _
    rw [hhead]
    rw [show base.length + data.length = (base ++ data).length by simp]
    rw [ih bs (base ++ data) (by rw [h]; simp)]

end KG

namespace KG

/-- Any archive whose first four bytes are not the magic fails to decode
(through the `ValueError`, or through a `struct.error` when the header is
truncated). -/
theorem decode_bad_magic {bs : List Nat} (h : bs.take 4 ≠ MAGIC) :
    ∀ r, decode bs ≠ .ok r := by
  intro r
  unfold decode
  dsimp only
  split
  · simp
  · split
    · simp
    · rw [if_pos (by simpa [readF] using h)]
      simp

/-- Decoding inverts encoding: `decode(encode(files))` returns the archived
`(name, data)` pairs. -/
theorem decode_encode {files : List (List Nat × List Nat)} {bs : List Nat}
    (h : encode files = .ok bs) : decode bs = .ok files := by
  unfold encode at h
  split at h
  · exact absurd h (by simp)
  · next cntB hcnt =>
    dsimp only at h
    split at h
    · exact absurd h (by simp)
    · next table htab =>
      simp only [Except.ok.injEq] at h
      subst h
      have hcs := packH_shape hcnt
      have hcl : cntB.length = 2 := by rw [hcs.1]; rfl
      unfold decode
      dsimp only
      rw [readF_at (u := ([] : List Nat)) (v := MAGIC)
        (w := [0, 1] ++ cntB ++ List.replicate 8 0 ++ table ++
          (files.map (fun fl => fl.2)).flatten) (p := 0) (k := 4) (by simp) rfl rfl]
      dsimp only
      rw [readF_at (u := MAGIC) (v := [0, 1])
        (w := cntB ++ List.replicate 8 0 ++ table ++
          (files.map (fun fl => fl.2)).flatten) (p := 0 + 4) (k := 2) (by simp) (by decide) rfl]
      dsimp only
      rw [show unpackBB [0, 1] = .ok (0, 1) from rfl]
      dsimp only
      rw [readF_at (u := MAGIC ++ [0, 1]) (v := cntB)
        (w := List.replicate 8 0 ++ table ++
          (files.map (fun fl => fl.2)).flatten) (p := 0 + 4 + 2) (k := 2)
        (by simp) (by decide) hcl.symm]
      dsimp only
      rw [unpackH_packH hcnt]
      dsimp only
      rw [readF_at (u := MAGIC ++ [0, 1] ++ cntB) (v := List.replicate 8 0)
        (w := table ++ (files.map (fun fl => fl.2)).flatten)
        (p := 0 + 4 + 2 + 2) (k := 8)
        (by simp) (by simp [MAGIC, hcl]) (by decide)]
      dsimp only
      rw [if_neg (by simp)]
      rw [show (0 + 4 + 2 + 2 + 8 : Nat) =
          (MAGIC ++ [0, 1] ++ cntB ++ List.replicate 8 0).length by
        simp [MAGIC, hcl]]
      rw [show MAGIC ++ [0, 1] ++ cntB ++ List.replicate 8 0 ++ table ++
          (files.map (fun fl => fl.2)).flatten =
        (MAGIC ++ [0, 1] ++ cntB ++ List.replicate 8 0) ++ table ++
          (files.map (fun fl => fl.2)).flatten by simp]
      rw [readEntries_table files _ table _ _ htab]
      dsimp only
      rw [show (16 : Nat) + (files.map (fun fl => 2 + fl.1.length + 8 + 8)).sum =
        ((MAGIC ++ [0, 1] ++ cntB ++ List.replicate 8 0) ++ table).length by
        simp [MAGIC, hcl, encTable_length htab]
        omega]
      rw [extract_flatten files _ _ (by simp)]

end KG

/-- **C9 (counterexample).** An archive with the correct magic whose single
table entry declares size 4 at offset 1000 — far beyond the 35-byte file —
decodes *successfully*, returning the entry with truncated (empty) data:
`KGFormat.decode` performs no bounds check on declared offsets or sizes, so
"fails whenever a declared file offset or size lies outside the file" is false. -/
theorem claim_C9_counterexample :
    (KG.MAGIC ++ [0, 1] ++ [1, 0] ++ List.replicate 8 0 ++
      ([1, 0] ++ [97] ++ [4, 0, 0, 0, 0, 0, 0, 0] ++
        [232, 3, 0, 0, 0, 0, 0, 0])).length = 35 ∧
    KG.decode (KG.MAGIC ++ [0, 1] ++ [1, 0] ++ List.replicate 8 0 ++
      ([1, 0] ++ [97] ++ [4, 0, 0, 0, 0, 0, 0, 0] ++
        [232, 3, 0, 0, 0, 0, 0, 0])) = .ok [([97], [])] := by
  refine ⟨by decide, by decide⟩

/-- **C9 (amended).** Decoding a dictionary archive fails (with the
`DataCorruption`-class `ValueError`, or a `struct.error` on a truncated
header) whenever the archive's magic bytes are not "KLGM"; a declared offset
or size outside the file does *not* make decoding fail — the data is silently
truncated to the bytes available; and decoding an archive produced by the
encoder succeeds and returns exactly the archived (name, data) pairs. -/
theorem claim_C9_amended :
    (∀ bs : List Nat, bs.take 4 ≠ KG.MAGIC → ∀ r, KG.decode bs ≠ .ok r) ∧
    (∀ (files : List (List Nat × List Nat)) (bs : List Nat),
      KG.encode files = .ok bs → KG.decode bs = .ok files) :=
  ⟨fun _ h => KG.decode_bad_magic h, fun _ _ h => KG.decode_encode h⟩

/-- Witness for C9 (amended): a wrong-magic file is rejected, and a concrete
one-file archive round-trips. -/
theorem claim_C9_amended_witness :
    KG.decode [0, 0, 0, 0, 0, 0, 0, 0] ≠ .ok [] ∧
    KG.decode [75, 76, 71, 77, 0, 1, 1, 0, 0, 0, 0, 0, 0, 0, 0, 0, 1, 0, 97,
      3, 0, 0, 0, 0, 0, 0, 0, 35, 0, 0, 0, 0, 0, 0, 0, 1, 2, 3] =
      .ok [([97], [1, 2, 3])] :=
  ⟨claim_C9_amended.1 [0, 0, 0, 0, 0, 0, 0, 0] (by decide) [],
   claim_C9_amended.2 [([97], [1, 2, 3])] _ (by decide)⟩

namespace Roman

/-- `romanization.CHO_MAP`. -/
def CHO_MAP : List (Char × String) :=
  [('ㄱ', "g"), ('ㄲ', "kk"), ('ㄴ', "n"), ('ㄷ', "d"), ('ㄸ', "tt"),
   ('ㄹ', "r"), ('ㅁ', "m"), ('ㅂ', "b"), ('ㅃ', "pp"), ('ㅅ', "s"),
   ('ㅆ', "ss"), ('ㅇ', ""), ('ㅈ', "j"), ('ㅉ', "jj"), ('ㅊ', "ch"),
   ('ㅋ', "k"), ('ㅌ', "t"), ('ㅍ', "p"), ('ㅎ', "h")]

/-- `romanization.JUNG_MAP`. -/
def JUNG_MAP : List (Char × String) :=
  [('ㅏ', "a"), ('ㅐ', "ae"), ('ㅑ', "ya"), ('ㅒ', "yae"),
   ('ㅓ', "eo"), ('ㅔ', "e"), ('ㅕ', "yeo"), ('ㅖ', "ye"),
   ('ㅗ', "o"), ('ㅘ', "wa"), ('ㅙ', "wae"), ('ㅚ', "oe"), ('ㅛ', "yo"),
   ('ㅜ', "u"), ('ㅝ', "wo"), ('ㅞ', "we"), ('ㅟ', "wi"), ('ㅠ', "yu"),
   ('ㅡ', "eu"), ('ㅢ', "ui"), ('ㅣ', "i")]

/-- `romanization.JONG_MAP_LITERAL` (the `""` key maps to `""`, which
coincides with the `.get` default carried by the empty slot). -/
def JONG_MAP_LITERAL : List (Char × String) :=
  [('ㄱ', "g"), ('ㄲ', "kk"), ('ㄳ', "gs"),
   ('ㄴ', "n"), ('ㄵ', "nj"), ('ㄶ', "nh"),
   ('ㄷ', "d"), ('ㄹ', "l"),
   ('ㄺ', "lg"), ('ㄻ', "lm"), ('ㄼ', "lb"), ('ㄽ', "ls"), ('ㄾ', "lt"),
   ('ㄿ', "lp"), ('ㅀ', "lh"),
   ('ㅁ', "m"),
   ('ㅂ', "b"), ('ㅄ', "bs"),
   ('ㅅ', "s"), ('ㅆ', "ss"),
   ('ㅇ', "ng"),
   ('ㅈ', "j"), ('ㅊ', "ch"),
   ('ㅋ', "k"), ('ㅌ', "t"), ('ㅍ', "p"), ('ㅎ', "h")]

/-- `TABLE.get(slot, "")`. -/
def mapGetS (tbl : List (Char × String)) (s : Slot) : String :=
  match s with
  | some c => (tbl.lookup c).getD ""
  | none => ""

/-- The per-character piece of `romanize_standard`. -/
def romChar (c : Char) : List Char :=
  if Hangul.isHangul c then
    let d := Hangul.decompose c
    (mapGetS CHO_MAP d.1 ++ mapGetS JUNG_MAP d.2.1 ++
      mapGetS JONG_MAP_LITERAL d.2.2).data
  else [c]

/-- `romanization.romanize_standard`: literal, spelling-based transliteration. -/
def romanizeStandard (text : List Char) : List Char :=
  (text.map romChar).flatten

/-- The medial slot of a decomposed modern syllable is a modern vowel. -/
theorem decompose_jung_mem {c : Char} (h : Hangul.isCompleteHangul c = true) :
    ∃ y ∈ Hangul.JUNGSUNG, (Hangul.decompose c).2.1 = some y := by
  have hr : 0xAC00 ≤ c.toNat ∧ c.toNat ≤ 0xD7A3 := by
    simpa [Hangul.isCompleteHangul] using h
  unfold Hangul.decompose
  simp only [hr, and_self, if_true]
  exact ⟨_, Pron.getD_mem_of_default_mem (by decide), rfl⟩

/-- Every `JUNG_MAP` image is nonempty. -/
theorem mapGetS_jung_ne {y : Char} (hy : y ∈ Hangul.JUNGSUNG) :
    mapGetS JUNG_MAP (some y) ≠ "" := by
  revert hy
  revert y
  decide

/-- Every modern precomposed syllable romanizes to a nonempty string: its
medial is a modern vowel, and every `JUNG_MAP` image is nonempty. -/
theorem romChar_ne_nil {c : Char} (h : Hangul.isCompleteHangul c = true) :
    romChar c ≠ [] := by
  have hh : Hangul.isHangul c = true := by
    simp only [Hangul.isCompleteHangul, decide_eq_true_eq] at h
    simp only [Hangul.isHangul, decide_eq_true_eq]
    exact Or.inl h
  obtain ⟨y, hy, hjung⟩ := decompose_jung_mem h
  unfold romChar
  rw [if_pos hh]
  dsimp only
  rw [hjung]
  intro hcontra
  have hlen := congrArg List.length hcontra
  simp only [String.data_append, List.length_append, List.length_nil] at hlen
  have hz : (mapGetS JUNG_MAP (some y)).data.length = 0 := by omega
  have hd : (mapGetS JUNG_MAP (some y)).data = [] := List.length_eq_zero.mp hz
  exact mapGetS_jung_ne hy (String.ext hd)

end Roman

namespace Roman

/-- Injectivity of the literal romanization over a vocabulary whose images are
prefix-free. -/
theorem romanizeStandard_inj (S : List Char) :
    ∀ (s1 s2 : List Char),
    (∀ c ∈ s1, c ∈ S) → (∀ c ∈ s2, c ∈ S) →
    (∀ c ∈ S, Hangul.isCompleteHangul c = true) →
    (∀ c ∈ S, ∀ d ∈ S, romChar c <+: romChar d → c = d) →
    romanizeStandard s1 = romanizeStandard s2 → s1 = s2 := by
  intro s1
  induction s1 with
  | nil =>
    intro s2 _ hS2 hcomp _ heq
    cases s2 with
    | nil => rfl
    | cons d t2 =>
      exfalso
      apply romChar_ne_nil (hcomp d (hS2 d (List.mem_cons_self _ _)))
      have : romanizeStandard (d :: t2) = [] := heq.symm
      simp only [romanizeStandard, List.map_cons, List.flatten_cons] at this
      exact (List.append_eq_nil.mp this).1
  | cons c t1 ih =>
    intro s2 hS1 hS2 hcomp hpf heq
    cases s2 with
    | nil =>
      exfalso
      apply romChar_ne_nil (hcomp c (hS1 c (List.mem_cons_self _ _)))
      simp only [romanizeStandard, List.map_cons, List.flatten_cons, List.map_nil,
        List.flatten_nil] at heq
      exact (List.append_eq_nil.mp heq).1
    | cons d t2 =>
      simp only [romanizeStandard, List.map_cons, List.flatten_cons] at heq
      have hc : c ∈ S := hS1 c (List.mem_cons_self _ _)
      have hd : d ∈ S := hS2 d (List.mem_cons_self _ _)
      have hpre1 : romChar c <+: romChar c ++ (t1.map romChar).flatten :=
        List.prefix_append _ _
      have hpre2 : romChar d <+: romChar c ++ (t1.map romChar).flatten := by
        rw [heq]
        exact List.prefix_append _ _
      have hcd : c = d := by
        rcases List.prefix_or_prefix_of_prefix hpre1 hpre2 with hp | hp
        · exact hpf c hc d hd hp
        · exact (hpf d hd c hc hp).symm
      subst hcd
      have htail := List.append_cancel_left heq
      rw [ih t2 (fun x hx => hS1 x (List.mem_cons_of_mem _ hx))
        (fun x hx => hS2 x (List.mem_cons_of_mem _ hx)) hcomp hpf htail]

end Roman

/-- **C8 (counterexample).** Pairwise-distinct per-syllable images do not make
the literal romanization injective: 간, 아, 가, 나 have the pairwise distinct
images "gan", "a", "ga", "na", yet `romanize_standard` maps the two distinct
strings 간아 and 가나 to the same "gana" (the image set is not prefix-free:
"ga" is a prefix of "gan"). -/
theorem claim_C8_counterexample :
    Roman.romanizeStandard "간아".data = "gana".data ∧
    Roman.romanizeStandard "가나".data = "gana".data ∧
    ("간아".data ≠ "가나".data) ∧
    [Roman.romChar '간', Roman.romChar '아', Roman.romChar '가',
      Roman.romChar '나'].Nodup ∧
    (∀ c ∈ "간아".data ++ "가나".data, Hangul.isCompleteHangul c = true) := by
  refine ⟨by decide, by decide, by decide, by decide, by decide⟩

/-- **C8 (amended).** `romanize_standard` is injective on inputs composed only
of modern precomposed syllables drawn from a vocabulary whose individual
Latin images are pairwise distinct *and prefix-free* (no syllable's image is a
prefix of another's): under those hypotheses two distinct inputs always
romanize differently. -/
theorem claim_C8_amended (S : List Char) (s1 s2 : List Char)
    (hS1 : ∀ c ∈ s1, c ∈ S) (hS2 : ∀ c ∈ s2, c ∈ S)
    (hcomp : ∀ c ∈ S, Hangul.isCompleteHangul c = true)
    (hdistinct : ∀ c ∈ S, ∀ d ∈ S, Roman.romChar c = Roman.romChar d → c = d)
    (hpf : ∀ c ∈ S, ∀ d ∈ S, Roman.romChar c <+: Roman.romChar d → c = d)
    (hne : s1 ≠ s2) :
    Roman.romanizeStandard s1 ≠ Roman.romanizeStandard s2 := by
  intro heq
  exact hne (Roman.romanizeStandard_inj S s1 s2 hS1 hS2 hcomp hpf heq)

/-- Witness for C8 (amended) on the vocabulary {가, 나}. -/
theorem claim_C8_amended_witness :
    Roman.romanizeStandard "가나".data ≠ Roman.romanizeStandard "나가".data :=
  claim_C8_amended ['가', '나'] "가나".data "나가".data
    (by decide) (by decide) (by decide) (by decide) (by decide) (by decide)

namespace Stem

/-! ### `constraints.py` and `scorers.py` -/

/-- `ConstraintValidator.impossible_transitions`. -/
def impossibleTransitions : List (String × String) :=
  [("JKS", "JKS"), ("JKO", "JKO"), ("EF", "JKS"), ("EF", "JKO"), ("EF", "EF"),
   ("SF", "JKS")]

/-- `ConstraintValidator.is_valid_transition`. -/
def isValidTransition (prev curr : String) : Bool :=
  ¬ impossibleTransitions.contains (prev, curr)

/-- `str.startswith(prefix)`, computed structurally (the core
`String.startsWith` does not reduce in the kernel). -/
def strStartsWith (s p : String) : Bool := p.data.isPrefixOf s.data

def splitOnCharGo (c : Char) : List Char → List Char → List (List Char)
  | [], acc => [acc.reverse]
  | d :: rest, acc =>
    if d = c then acc.reverse :: splitOnCharGo c rest []
    else splitOnCharGo c rest (d :: acc)

/-- `s.split("+")` for the single-character separator the analyzer uses. -/
def strSplitOnPlus (s : String) : List String :=
  (splitOnCharGo '+' s.data []).map String.mk

/-- `TransitionModel.get_transition_cost` for the default global `SCORING`
instance, whose learned `transitions` table is empty: the heuristic backoff.
All scoring constants are integral floats, carried exactly as integers. -/
def getTransitionCost (prevPos : Option String) (currPos : String) : ℤ :=
  match prevPos with
  | none => 0
  | some prev =>
    if strStartsWith prev "N" ∧ strStartsWith currPos "J" then -20
    else if strStartsWith prev "V" ∧ strStartsWith currPos "E" then -15
    else if strStartsWith prev "E" ∧ strStartsWith currPos "E" then -10
    else if prev = "MAG" ∧ strStartsWith currPos "N" then -15
    else if prev = "MAG" ∧ strStartsWith currPos "V" then -10
    else if prev = "MM" ∧ strStartsWith currPos "N" then -10
    else 10

/-- `ScoringConfig.get_length_cost`. -/
def getLengthCost (len : Nat) : ℤ :=
  if len ≥ 3 then -40 else if len = 2 then -30 else -5

def PENALTY_SINGLE_VERB_IC : ℤ := 20
def BONUS_NOUN_2PLUS : ℤ := 5
def BONUS_ADVERB_2PLUS : ℤ := 10
def COST_CONJUGATION_BASE : ℤ := -25
def COST_OOV : ℤ := 50

/-! ### `irregular.py` -/

/-- The keys of `IrregularConjugation.b_irregular` (the base-form values are
never read). -/
def bIrregular : List (List Char) :=
  ["돕", "곱", "눕", "줍", "굽", "가깝", "고맙", "즐겁", "아름답", "무겁", "차갑",
   "뜨겁", "반갑", "어렵", "쉽", "더럽", "무섭", "귀엽", "부끄럽"].map String.data

def dIrregular : List (List Char) := ["듣", "걷", "묻", "싣", "깨닫"].map String.data

def sIrregular : List (List Char) := ["짓", "낫", "잇", "붓"].map String.data

def hIrregular : List (List Char) :=
  ["그렇", "이렇", "저렇", "어떻", "하얗", "까맣", "빨갛", "파랗", "노랗"].map String.data

def reuIrregular : List (List Char) :=
  ["부르", "오르", "다르", "빠르", "이르", "모르", "흐르", "기르"].map String.data

def euIrregular : List (List Char) :=
  ["쓰", "끄", "크", "뜨", "잠그", "기쁘", "슬프", "바쁘", "아프"].map String.data

/-- One suffix block of `restore_b_irregular`: undo a ㅂ-irregular surface
ending. `compose` returning `None` makes the Python `base[:-1] + stem_last`
concatenation raise a `TypeError`. -/
def checkB (suffix : Char) (ending : List Char) (surface : List Char) :
    Except PyErr (Option (List Char × List Char)) :=
  if surface.getLast? = some suffix then
    let base := surface.dropLast
    match base.getLast? with
    | none => .ok none
    | some lastChar =>
      let d := Hangul.decompose lastChar
      match Hangul.compose d.1 d.2.1 (some 'ㅂ') with
      | none => .error .typeError
      | some stemLast =>
        let stem := base.dropLast ++ [stemLast]
        if bIrregular.contains stem then .ok (some (stem, ending)) else .ok none
  else .ok none

/-- Sequencing of the early-`return` blocks (`None` falls through to the next
block; an exception propagates). -/
def orE {α : Type} (x : Except PyErr (Option α)) (y : Unit → Except PyErr (Option α)) :
    Except PyErr (Option α) :=
  match x with
  | .error e => .error e
  | .ok (some v) => .ok (some v)
  | .ok none => y ()

/-- `IrregularConjugation.restore_b_irregular`: the 와 / 워 / 우 / 운 blocks in
order. -/
def restoreB (surface : List Char) : Except PyErr (Option (List Char × List Char)) :=
  orE (checkB '와' "아".data surface) (fun _ =>
  orE (checkB '워' "어".data surface) (fun _ =>
  orE (checkB '우' "어".data surface) (fun _ =>
  checkB '운' "은".data surface)))

/-- `IrregularConjugation.restore_d_irregular`: first listed ㄷ-stem whose
ㄹ-form prefixes the surface. -/
def restoreDGo (surface : List Char) :
    List (List Char) → Except PyErr (Option (List Char × List Char))
  | [] => .ok none
  | stem :: rest =>
    match stem.getLast? with
    | none => restoreDGo surface rest
    | some lastChar =>
      let d := Hangul.decompose lastChar
      if d.2.2 ≠ some 'ㄷ' then restoreDGo surface rest
      else
        match Hangul.compose d.1 d.2.1 (some 'ㄹ') with
        | none => .error .typeError
        | some changed =>
          let stemPre := stem.dropLast ++ [changed]
          if stemPre.isPrefixOf surface then
            .ok (some (stem, surface.drop stemPre.length))
          else restoreDGo surface rest

def restoreD (surface : List Char) : Except PyErr (Option (List Char × List Char)) :=
  restoreDGo surface dIrregular

/-- `IrregularConjugation.restore_s_irregular`. -/
def restoreSGo (surface : List Char) :
    List (List Char) → Except PyErr (Option (List Char × List Char))
  | [] => .ok none
  | stem :: rest =>
    match stem.getLast? with
    | none => restoreSGo surface rest
    | some lastChar =>
      let d := Hangul.decompose lastChar
      if d.2.2 ≠ some 'ㅅ' then restoreSGo surface rest
      else
        match Hangul.compose d.1 d.2.1 (some ' ') with
        | none => .error .typeError
        | some baseChar =>
          let stemSound := stem.dropLast ++ [baseChar]
          if stemSound.isPrefixOf surface then
            .ok (some (stem, surface.drop stemSound.length))
          else restoreSGo surface rest

def restoreS (surface : List Char) : Except PyErr (Option (List Char × List Char)) :=
  restoreSGo surface sIrregular

/-- `IrregularConjugation.restore_h_irregular`. -/
def restoreHGo (surface : List Char) :
    List (List Char) → Except PyErr (Option (List Char × List Char))
  | [] => .ok none
  | stem :: rest =>
    let stemBase := stem.dropLast
    if surface = stemBase ++ "래".data then .ok (some (stem, "아".data))
    else if (stemBase ++ "러".data).isPrefixOf surface then
      .ok (some (stem, "어".data ++ surface.drop (stemBase ++ "러".data).length))
    else restoreHGo surface rest

def restoreH (surface : List Char) : Except PyErr (Option (List Char × List Char)) :=
  restoreHGo surface hIrregular

/-- `IrregularConjugation.restore_reu_irregular`. The guard
`if jong != " ": continue` compares the decomposed final (the empty string)
with a one-space string, which never matches, so every stem is skipped; the
remainder of the loop body is dead code, embedded nonetheless. -/
def restoreReuGo (surface : List Char) :
    List (List Char) → Except PyErr (Option (List Char × List Char))
  | [] => .ok none
  | stem :: rest =>
    if stem.getLast? ≠ some '르' then restoreReuGo surface rest
    else
      let pre := stem.dropLast
      match pre.getLast? with
      | none => restoreReuGo surface rest
      | some pLast =>
        let d := Hangul.decompose pLast
        if d.2.2 ≠ some ' ' then restoreReuGo surface rest
        else
          match Hangul.compose d.1 d.2.1 (some 'ㄹ') with
          | none => .error .typeError
          | some mp =>
            let modPre := pre.dropLast ++ [mp]
            if modPre.isPrefixOf surface then
              match (surface.drop modPre.length).head? with
              | none => restoreReuGo surface rest
              | some firstRest =>
                let dr := Hangul.decompose firstRest
                if dr.1 = some 'ㄹ' then
                  let rest2 := surface.drop modPre.length
                  let ending0 :=
                    if dr.2.1 = some 'ㅓ' then "어".data
                    else if dr.2.1 = some 'ㅏ' then "아".data
                    else rest2
                  let ending :=
                    if rest2.length > 1 then ending0 ++ rest2.drop 1 else ending0
                  .ok (some (stem, ending))
                else restoreReuGo surface rest
            else restoreReuGo surface rest

def restoreReu (surface : List Char) : Except PyErr (Option (List Char × List Char)) :=
  restoreReuGo surface reuIrregular

/-- `IrregularConjugation.restore_eu_irregular`. -/
def restoreEuGo (surface : List Char) :
    List (List Char) → Except PyErr (Option (List Char × List Char))
  | [] => .ok none
  | stem :: rest =>
    let stemPre := stem.dropLast
    if stemPre = [] then
      match surface.head?, stem.head? with
      | some sHead, some stHead =>
        let dStem := Hangul.decompose stHead
        let dSurf := Hangul.decompose sHead
        if dStem.1 ≠ dSurf.1 then restoreEuGo surface rest
        else if dSurf.2.1 = some 'ㅓ' ∨ dSurf.2.1 = some 'ㅏ' ∨
            dSurf.2.1 = some 'ㅕ' ∨ dSurf.2.1 = some 'ㅑ' then
          let ending0 :=
            if dSurf.2.1 = some 'ㅓ' then "어".data
            else if dSurf.2.1 = some 'ㅏ' then "아".data
            else [sHead]
          let ending :=
            if surface.length > 1 then ending0 ++ surface.drop 1 else ending0
          .ok (some (stem, ending))
        else restoreEuGo surface rest
      | _, _ => restoreEuGo surface rest
    else
      if stemPre.isPrefixOf surface then
        let ending := surface.drop stemPre.length
        match ending.head? with
        | some e0 =>
          if "ㅓㅏㅕㅑ어아여야".data.contains e0 then .ok (some (stem, ending))
          else restoreEuGo surface rest
        | none => restoreEuGo surface rest
      else restoreEuGo surface rest

def restoreEu (surface : List Char) : Except PyErr (Option (List Char × List Char)) :=
  restoreEuGo surface euIrregular

/-- `IrregularConjugation.restore_any`: the six patterns in order; the
irregular kind tags the source of the match. -/
def restoreAny (surface : List Char) :
    Except PyErr (Option (List Char × List Char × String)) :=
  orE ((restoreB surface).map (Option.map (fun r => (r.1, r.2, "ㅂ")))) (fun _ =>
  orE ((restoreD surface).map (Option.map (fun r => (r.1, r.2, "ㄷ")))) (fun _ =>
  orE ((restoreS surface).map (Option.map (fun r => (r.1, r.2, "ㅅ")))) (fun _ =>
  orE ((restoreH surface).map (Option.map (fun r => (r.1, r.2, "ㅎ")))) (fun _ =>
  orE ((restoreReu surface).map (Option.map (fun r => (r.1, r.2, "르")))) (fun _ =>
  (restoreEu surface).map (Option.map (fun r => (r.1, r.2, "으"))))))))

end Stem

namespace Stem

/-! ### `conjugation.py` -/

/-- `conjugated[:-1] + stem_char if len(conjugated) > 1 else stem_char`. -/
def contrStem (conjugated : List Char) (sc : Char) : List Char :=
  if conjugated.length > 1 then conjugated.dropLast ++ [sc] else [sc]

/-- `ConjugationAnalyzer.restore_verb_stem`. The `cho is None` early return and
the fall-through of the jamo cases (`cho` or `jong` the empty string) end in
the same `results if results else [(conjugated, "")]`, so the merged-slot
decomposition model is exact here. A `compose` returning `None` inside a taken
branch would surface as a `TypeError` (directly for a multi-character
conjugated form, via the later trie scan of a `None` stem otherwise); both
spots are unreachable since the initial was already validated by the
successful outer `compose`. -/
def restoreVerbStem (conjugated : List Char) :
    Except PyErr (List (List Char × List Char)) :=
  if conjugated = [] then .ok []
  else
    match restoreAny conjugated with
    | .error e => .error e
    | .ok irr =>
      let results0 : List (List Char × List Char) :=
        match irr with
        | some (stem, ending, _) => [(stem, ending)]
        | none => []
      let dflt := if results0.isEmpty then [(conjugated, ([] : List Char))] else results0
      match conjugated.getLast? with
      | none => .ok dflt
      | some lastChar =>
        let d := Hangul.decompose lastChar
        if d.1 = none then .ok dflt
        else if d.2.2 = some 'ㅆ' then
          match Hangul.compose d.1 d.2.1 (some ' ') with
          | none => .ok dflt
          | some baseChar =>
            let step1 : Except PyErr (List (List Char × List Char)) :=
              if d.2.1 = some 'ㅏ' ∨ d.2.1 = some 'ㅗ' ∨ d.2.1 = some 'ㅘ' then
                let stemChar := if d.2.1 = some 'ㅘ' then
                    Hangul.compose d.1 (some 'ㅗ') (some ' ')
                  else some baseChar
                match stemChar with
                | none => .error .typeError
                | some sc => .ok [(contrStem conjugated sc, "았".data)]
              else if d.2.1 = some 'ㅓ' ∨ d.2.1 = some 'ㅜ' ∨ d.2.1 = some 'ㅝ' ∨
                  d.2.1 = some 'ㅣ' ∨ d.2.1 = some 'ㅔ' ∨ d.2.1 = some 'ㅐ' then
                let stemChar := if d.2.1 = some 'ㅝ' then
                    Hangul.compose d.1 (some 'ㅜ') (some ' ')
                  else some baseChar
                match stemChar with
                | none => .error .typeError
                | some sc => .ok [(contrStem conjugated sc, "었".data)]
              else .ok []
            match step1 with
            | .error e => .error e
            | .ok s1 =>
              let s2 : List (List Char × List Char) :=
                if d.2.1 = some 'ㅓ' ∨ d.2.1 = some 'ㅏ' then
                  match Hangul.compose d.1 (some 'ㅡ') (some ' ') with
                  | some se =>
                    [(contrStem conjugated se,
                      if d.2.1 = some 'ㅓ' then "었".data else "았".data)]
                  | none => []
                else []
              let results := results0 ++ s1 ++ s2
              .ok (if results.isEmpty then [(conjugated, ([] : List Char))] else results)
        else if d.2.2 = some ' ' then
          -- dead branch: `decompose` renders an absent final as the empty
          -- string, never as one space; embedded for completeness.
          let step1 : Except PyErr (List (List Char × List Char)) :=
            if d.2.1 = some 'ㅘ' then
              match Hangul.compose d.1 (some 'ㅗ') (some ' ') with
              | none => .error .typeError
              | some sc => .ok [(contrStem conjugated sc, "아".data)]
            else if d.2.1 = some 'ㅝ' then
              match Hangul.compose d.1 (some 'ㅜ') (some ' ') with
              | none => .error .typeError
              | some sc => .ok [(contrStem conjugated sc, "어".data)]
            else if d.2.1 = some 'ㅓ' ∨ d.2.1 = some 'ㅏ' then
              match Hangul.compose d.1 (some 'ㅡ') (some ' ') with
              | some se =>
                .ok [(contrStem conjugated se,
                  if d.2.1 = some 'ㅓ' then "어".data else "아".data)]
              | none => .ok []
            else .ok []
          match step1 with
          | .error e => .error e
          | .ok s1 =>
            let results := results0 ++ s1
            .ok (if results.isEmpty then [(conjugated, ([] : List Char))] else results)
        else .ok dflt

end Stem

namespace Stem

/-! ### `stemmer.py` (the default, non-Rust, non-GPU path) and
`analyzer.py`'s dictionary pipeline -/

/-- The ending-POS heuristic of the conjugation candidate block (initial
value `"EP"`, the final `elif` redundant). -/
def endingPosOf (ending : List Char) : String :=
  if (["은", "는", "을", "ㄹ", "던", "ㄴ"].map String.data).contains ending then "ETM"
  else if (["다", "요", "죠", "습니다", "ㅂ니다", "구나", "군"].map String.data).contains
      ending then "EF"
  else if (["고", "며", "면서", "아", "어", "게", "지", "니", "니까"].map
      String.data).contains ending then "EC"
  else "EP"

/-- `total_cost < dp[j]` with `None` as `float("inf")`. -/
def ltInf (x : ℤ) : Option ℤ → Bool
  | none => true
  | some y => decide (x < y)

/-- The three parallel DP arrays of `_analyze_sentence`. -/
structure DPState : Type where
  dp : List (Option ℤ)
  path : List (Option Morph)
  prevPos : List (Option String)

/-- `dp[j] = total; path[j] = m; prev_pos[j] = pp`. -/
def stateUpd (st : DPState) (j : Nat) (total : ℤ) (m : Morph) (pp : String) :
    DPState :=
  ⟨st.dp.set j (some total), st.path.set j (some m), st.prevPos.set j (some pp)⟩

/-- One `(pos, lemma)` candidate of the dictionary block at span `[i, j)`,
`di = dp[i]` and `pp0 = prev_pos[i]`. -/
def dictCand (st : DPState) (j : Nat) (di : ℤ) (pp0 : Option String)
    (surface : List Char) (p : KTrie.Pat) : DPState :=
  let pos := p.1
  let lemmaV := p.2
  let skip : Bool := match pp0 with
    | some pv => ! isValidTransition pv pos
    | none => false
  if skip then st
  else
    let wordLen := surface.length
    let base0 := getLengthCost wordLen
    let base1 := if wordLen = 1 ∧ (strStartsWith pos "V" ∨ pos = "IC") then
        base0 + PENALTY_SINGLE_VERB_IC else base0
    let base2 := if strStartsWith pos "N" ∧ wordLen ≥ 2 then
        base1 - BONUS_NOUN_2PLUS else base1
    let base3 := if pos = "MAG" ∧ wordLen ≥ 2 then
        base2 - BONUS_ADVERB_2PLUS else base2
    let context := match pp0 with
      | some pv => getTransitionCost (some pv) pos
      | none => 0
    let total := di + base3 + context
    if ltInf total (st.dp.getD j none) then
      if pos.data.contains '+' then
        let posParts := strSplitOnPlus pos
        let lemmaParts := strSplitOnPlus lemmaV
        let subs :=
          if posParts.length = lemmaParts.length then
            (posParts.zip lemmaParts).map (fun pl => mkMorph pl.2.data pl.1 pl.2)
          else posParts.map (fun p2 => mkMorph lemmaV.data p2 lemmaV)
        stateUpd st j total (mkMorphSubs surface pos lemmaV subs)
          ((posParts.getLast?).getD "")
      else stateUpd st j total (mkMorph surface pos lemmaV) pos
    else st

/-- The dictionary block of iteration `i`: scan
`sentence[i : min(i + 16, n)]`, keep the triples starting at 0. -/
def dictStep (t : KTrie.Trie) (sentence : List Char) (n i : Nat) (di : ℤ)
    (pp0 : Option String) (st : DPState) : DPState :=
  let patterns := KTrie.searchAllPatterns t
    ((sentence.drop i).take (min (i + 16) n - i))
  patterns.foldl
    (fun st1 tr =>
      if tr.1 ≠ 0 then st1
      else
        let j := i + tr.2.1
        let surface := (sentence.drop i).take (j - i)
        tr.2.2.foldl (fun st2 p => dictCand st2 j di pp0 surface p) st1)
    st

/-- One `(stem, ending)` candidate of the conjugation block: first full-stem
triple, then the first V-tagged pattern passing the transition constraint
(a constraint-rejected V continues the scan, any accepted one breaks). -/
def conjCand (t : KTrie.Trie) (st : DPState) (j : Nat) (di : ℤ)
    (pp0 : Option String) (surface stem ending : List Char) : DPState :=
  if ending.isEmpty then st
  else
    let stemPatterns := KTrie.searchAllPatterns t stem
    match stemPatterns.find? (fun tr => tr.1 = 0 ∧ tr.2.1 = stem.length) with
    | none => st
    | some tr =>
      match tr.2.2.find? (fun p => strStartsWith p.1 "V" &&
          (match pp0 with
           | some pv => isValidTransition pv p.1
           | none => true)) with
      | none => st
      | some p =>
        let pos := p.1
        let lemmaV := p.2
        let context := match pp0 with
          | some pv => getTransitionCost (some pv) pos
          | none => 0
        let endingPos := endingPosOf ending
        let total := di + COST_CONJUGATION_BASE + context
        if ltInf total (st.dp.getD j none) then
          stateUpd st j total
            (mkMorphSubs surface pos lemmaV
              [mkMorph stem pos lemmaV, mkMorph ending endingPos (String.mk ending)])
            endingPos
        else st

/-- The conjugation block of iteration `i` (`j` up to `min(i + 8, n + 1)`
exclusive); `restore_verb_stem` may raise. -/
def conjStep (t : KTrie.Trie) (sentence : List Char) (n i : Nat) (di : ℤ)
    (pp0 : Option String) (st : DPState) : Except PyErr DPState :=
  (List.range' (i + 1) (min (i + 8) (n + 1) - (i + 1))).foldlM
    (fun st1 j =>
      let surface := (sentence.drop i).take (j - i)
      match restoreVerbStem surface with
      | .error e => .error e
      | .ok conjResults =>
        .ok (conjResults.foldl
          (fun st2 se => conjCand t st2 j di pp0 surface se.1 se.2) st1))
    st

/-- The OOV block of iteration `i`: spans up to 15 characters, only into
still-unreached positions. -/
def oovStep (sentence : List Char) (n i : Nat) (di : ℤ) (st : DPState) :
    DPState :=
  (List.range' (i + 1) (min (i + 16) (n + 1) - (i + 1))).foldl
    (fun st1 j =>
      if st1.dp.getD j none = none then
        let surface := (sentence.drop i).take (j - i)
        let total := di + COST_OOV
        if ltInf total (st1.dp.getD j none) then
          stateUpd st1 j total (mkMorphScored surface "NNG" (String.mk surface) (1/2))
            "NNG"
        else st1
      else st1)
    st

/-- One iteration of the outer `for i in range(n)` loop. -/
def analyzeStep (t : KTrie.Trie) (sentence : List Char) (n : Nat)
    (st : DPState) (i : Nat) : Except PyErr DPState :=
  match st.dp.getD i none with
  | none => .ok st
  | some di =>
    let pp0 := st.prevPos.getD i none
    let st1 := dictStep t sentence n i di pp0 st
    match conjStep t sentence n i di pp0 st1 with
    | .error e => .error e
    | .ok st2 => .ok (oovStep sentence n i di st2)

/-- `dp = [inf] * (n + 1); dp[0] = 0.0; path = prev_pos = [None] * (n + 1)`. -/
def initState (n : Nat) : DPState :=
  ⟨some 0 :: List.replicate n none, List.replicate (n + 1) none,
    List.replicate (n + 1) none⟩

/-- `Stemmer._backtrack`'s while loop, fuel-bounded (each step retreats by the
stored surface length, at least 1 for every reachable path entry). -/
def backtrackGo (path : List (Option Morph)) : Nat → Nat → List Morph
  | 0, _ => []
  | _, 0 => []
  | fuel+1, cur+1 =>
    match path.getD (cur + 1) none with
    | none => []
    | some m =>
      (if m.subMorphs.isEmpty then [m] else m.subMorphs.reverse) ++
        backtrackGo path fuel (cur + 1 - m.surface.length)

/-- `Stemmer._backtrack`. -/
def backtrack (path : List (Option Morph)) (endPos : Nat) : List Morph :=
  (backtrackGo path (endPos + 1) endPos).reverse

/-- `Stemmer._analyze_sentence` (default engine: no Rust, no GPU). -/
def analyzeSentence (t : KTrie.Trie) (sentence : List Char) :
    Except PyErr (List Morph) :=
  if sentence = [] then .ok []
  else
    let n := sentence.length
    match (List.range n).foldlM (analyzeStep t sentence n) (initState n) with
    | .error e => .error e
    | .ok st => .ok (backtrack st.path n)

/-- The `re.split(r"([.!?。])", text)` delimiter set. -/
def sentenceDelims : List Char := ['.', '!', '?', '。']

def splitKeepGo : List Char → List Char → List (List Char)
  | [], acc => [acc.reverse]
  | c :: rest, acc =>
    if sentenceDelims.contains c then
      acc.reverse :: [c] :: splitKeepGo rest []
    else splitKeepGo rest (c :: acc)

/-- `re.split(r"([.!?。])", text)`: the segments interleaved with the captured
delimiters, empty segments kept. -/
def splitKeep (text : List Char) : List (List Char) :=
  splitKeepGo text []

/-- `str.isspace`, the character class stripped by `str.strip()` and split on
by `str.split()`. -/
def pyIsSpace (c : Char) : Bool :=
  c = ' ' ∨ (9 ≤ c.toNat ∧ c.toNat ≤ 13) ∨ (28 ≤ c.toNat ∧ c.toNat ≤ 31) ∨
    c.toNat = 0x85 ∨ c.toNat = 0xA0 ∨ c.toNat = 0x1680 ∨
    (0x2000 ≤ c.toNat ∧ c.toNat ≤ 0x200A) ∨ c.toNat = 0x2028 ∨
    c.toNat = 0x2029 ∨ c.toNat = 0x202F ∨ c.toNat = 0x205F ∨ c.toNat = 0x3000

/-- `sent.strip()`. -/
def pyStrip (s : List Char) : List Char :=
  ((s.dropWhile pyIsSpace).reverse.dropWhile pyIsSpace).reverse

/-- `Stemmer.analyze`: split on sentence punctuation (keeping it), strip, and
analyze each nonempty piece. -/
def stemmerAnalyze (t : KTrie.Trie) (text : List Char) :
    Except PyErr (List (List Morph)) :=
  (splitKeep text).foldlM
    (fun acc sent0 =>
      let sent := pyStrip sent0
      if sent = [] then .ok acc
      else
        match analyzeSentence t sent with
        | .error e => .error e
        | .ok ms => .ok (acc ++ [ms]))
    []

/-- `text.split()`: maximal runs of non-whitespace. -/
def pySplitGo : List Char → List Char → List (List Char)
  | [], acc => if acc = [] then [] else [acc.reverse]
  | c :: rest, acc =>
    if pyIsSpace c then
      (if acc = [] then [] else [acc.reverse]) ++ pySplitGo rest []
    else pySplitGo rest (c :: acc)

def pySplit (text : List Char) : List (List Char) :=
  pySplitGo text []

/-- `MorphAnalyzer.analyze` (dictionary path: no neural wrapper): whitespace
eojeols, each run through the stemmer, the sentence lists flattened. -/
def analyzerAnalyze (t : KTrie.Trie) (text : List Char) :
    Except PyErr (List Morph) :=
  (pySplit text).foldlM
    (fun acc eojeol =>
      match stemmerAnalyze t eojeol with
      | .error e => .error e
      | .ok results => .ok (acc ++ results.flatten))
    []

end Stem

namespace Stem

/-! ### Span decomposition of the DP result -/

/-- The contribution of one Viterbi path entry to the output: a composite
entry is replaced by its sub-morphemes, a plain entry stands for itself. -/
def expandSub (m : Morph) : List Morph :=
  if m.subMorphs.isEmpty then [m] else m.subMorphs

/-- The walk of `_backtrack` keeping the path entries themselves (the spans)
instead of expanding composites. -/
def spansGo (path : List (Option Morph)) : Nat → Nat → List Morph
  | 0, _ => []
  | _, 0 => []
  | fuel+1, cur+1 =>
    match path.getD (cur + 1) none with
    | none => []
    | some m => m :: spansGo path fuel (cur + 1 - m.surface.length)

/-- The spans visited by `_backtrack`, left to right. -/
def spansOf (path : List (Option Morph)) (endPos : Nat) : List Morph :=
  (spansGo path (endPos + 1) endPos).reverse

theorem backtrackGo_eq (path : List (Option Morph)) :
    ∀ fuel cur, backtrackGo path fuel cur =
      (spansGo path fuel cur).flatMap (fun m => (expandSub m).reverse) := by
  intro fuel
  induction fuel with
  | zero => intro cur; simp [backtrackGo, spansGo]
  | succ f ih =>
    intro cur
    cases cur with
    | zero => simp [backtrackGo, spansGo]
    | succ c =>
      simp only [backtrackGo, spansGo]
      cases path.getD (c + 1) none with
      | none => simp
      | some m =>
        simp only [List.flatMap_cons, ih]
        cases hs : m.subMorphs.isEmpty with
        | true => simp [expandSub, hs]
        | false => simp [expandSub, hs]

theorem backtrack_eq_spans (path : List (Option Morph)) (endPos : Nat) :
    backtrack path endPos = (spansOf path endPos).flatMap expandSub := by
  unfold backtrack spansOf
  rw [backtrackGo_eq]
  rw [show (fun m => (expandSub m).reverse) = (List.reverse ∘ expandSub) from rfl]
  rw [← List.flatMap_reverse]

/-! ### `getD`/`set` bookkeeping -/

theorem getD_set_self {α : Type _} {l : List α} {j : Nat} {v d : α}
    (h : j < l.length) : (l.set j v).getD j d = v := by
  induction l generalizing j with
  | nil => simp at h
  | cons x xs ih =>
    cases j with
    | zero => rfl
    | succ k =>
      simp only [List.length_cons] at h
      exact ih (Nat.lt_of_succ_lt_succ h)

theorem getD_set_ne {α : Type _} {l : List α} {j k : Nat} {v d : α}
    (h : k ≠ j) : (l.set j v).getD k d = l.getD k d := by
  induction l generalizing j k with
  | nil => rfl
  | cons x xs ih =>
    cases j with
    | zero =>
      cases k with
      | zero => exact absurd rfl h
      | succ k2 => rfl
    | succ j2 =>
      cases k with
      | zero => rfl
      | succ k2 => exact ih (fun he => h (congrArg Nat.succ he))

theorem getD_set_some_ne_none {l : List (Option α)} {j k : Nat} {v : α}
    (h : l.getD k none ≠ none) : (l.set j (some v)).getD k none ≠ none := by
  by_cases hkj : k = j
  · subst hkj
    by_cases hk : k < l.length
    · rw [getD_set_self hk]; exact fun he => Option.noConfusion he
    · rw [List.set_eq_of_length_le (Nat.le_of_not_lt hk)]; exact h
  · rw [getD_set_ne hkj]; exact h

/-! ### Fold invariants -/

theorem foldl_inv {α β : Type} {P : β → Prop} {f : β → α → β} :
    ∀ (l : List α) (b : β), (∀ b2 a, a ∈ l → P b2 → P (f b2 a)) → P b →
      P (l.foldl f b) := by
  intro l
  induction l with
  | nil => intro b _ hb; exact hb
  | cons x xs ih =>
    intro b hstep hb
    exact ih _ (fun b2 a ha => hstep b2 a (List.mem_cons_of_mem _ ha))
      (hstep b x (List.mem_cons_self _ _) hb)

theorem foldl_establish {α β : Type} {Q R : β → Prop} {f : β → α → β} {x : α} :
    ∀ (l : List α) (b : β), x ∈ l →
      (∀ b2, R b2 → Q (f b2 x)) →
      (∀ b2 a, a ∈ l → R b2 → R (f b2 a)) →
      (∀ b2 a, a ∈ l → Q b2 → Q (f b2 a)) →
      R b → Q (l.foldl f b) := by
  intro l
  induction l with
  | nil => intro b hx; simp at hx
  | cons y ys ih =>
    intro b hx hest hr hq hRb
    rcases List.mem_cons.mp hx with rfl | hx2
    · exact foldl_inv ys (f b x)
        (fun b2 a ha => hq b2 a (List.mem_cons_of_mem _ ha)) (hest b hRb)
    · exact ih (f b y) hx2 hest
        (fun b2 a ha => hr b2 a (List.mem_cons_of_mem _ ha))
        (fun b2 a ha => hq b2 a (List.mem_cons_of_mem _ ha))
        (hr b y (List.mem_cons_self _ _) hRb)

theorem foldlM_inv {α β : Type} {P : β → Prop} {f : β → α → Except PyErr β} :
    ∀ (l : List α) (b b' : β), l.foldlM f b = .ok b' →
      (∀ b2 a b3, a ∈ l → P b2 → f b2 a = .ok b3 → P b3) → P b → P b' := by
  intro l
  induction l with
  | nil =>
    intro b b' hfold _ hb
    simp only [List.foldlM_nil] at hfold
    cases hfold
    exact hb
  | cons x xs ih =>
    intro b b' hfold hstep hb
    simp only [List.foldlM_cons] at hfold
    cases hx : f b x with
    | error e => rw [hx] at hfold; cases hfold
    | ok b1 =>
      rw [hx] at hfold
      have hfold2 : xs.foldlM f b1 = .ok b' := hfold
      exact ih b1 b' hfold2
        (fun b2 a b3 ha => hstep b2 a b3 (List.mem_cons_of_mem _ ha))
        (hstep b x b1 (List.mem_cons_self _ _) hb hx)

end Stem

namespace Stem

/-- The invariant of the three DP arrays over `sentence` of length `n`:
array sizes, a path entry wherever a cost is finite (positions ≥ 1), and
every stored morpheme's surface equal to the slice of `sentence` that ends at
its position. -/
def Inv (sentence : List Char) (n : Nat) (st : DPState) : Prop :=
  st.dp.length = n + 1 ∧ st.path.length = n + 1 ∧ st.prevPos.length = n + 1 ∧
  (∀ k, 1 ≤ k → st.dp.getD k none ≠ none → st.path.getD k none ≠ none) ∧
  (∀ j m, st.path.getD j none = some m →
    1 ≤ m.surface.length ∧ m.surface.length ≤ j ∧ j ≤ n ∧
    m.surface = (sentence.drop (j - m.surface.length)).take m.surface.length)

theorem stateUpd_inv {sentence : List Char} {n : Nat} {st : DPState} {j : Nat}
    {total : ℤ} {m : Morph} {pp : String}
    (hInv : Inv sentence n st) (hj1 : 1 ≤ j) (hjn : j ≤ n)
    (hm1 : 1 ≤ m.surface.length) (hmj : m.surface.length ≤ j)
    (hms : m.surface = (sentence.drop (j - m.surface.length)).take m.surface.length) :
    Inv sentence n (stateUpd st j total m pp) := by
  obtain ⟨hd, hp, hq, hI2, hent⟩ := hInv
  refine ⟨by simp [stateUpd, hd], by simp [stateUpd, hp], by simp [stateUpd, hq],
    ?_, ?_⟩
  · intro k hk1 hdp
    by_cases hkj : k = j
    · subst hkj
      show (st.path.set k (some m)).getD k none ≠ none
      rw [getD_set_self (by omega : k < st.path.length)]
      exact fun he => Option.noConfusion he
    · show (st.path.set j (some m)).getD k none ≠ none
      rw [getD_set_ne hkj]
      exact hI2 k hk1 (by
        have hdp2 : (st.dp.set j (some total)).getD k none ≠ none := hdp
        rwa [getD_set_ne hkj] at hdp2)
  · intro j2 m2 hm2
    have hm2b : (st.path.set j (some m)).getD j2 none = some m2 := hm2
    by_cases hkj : j2 = j
    · subst hkj
      rw [getD_set_self (by omega : j2 < st.path.length)] at hm2b
      cases hm2b
      exact ⟨hm1, hmj, hjn, hms⟩
    · rw [getD_set_ne hkj] at hm2b
      exact hent j2 m2 hm2b

theorem dictCand_cases (st : DPState) (j : Nat) (di : ℤ) (pp0 : Option String)
    (surface : List Char) (p : KTrie.Pat) :
    dictCand st j di pp0 surface p = st ∨
    ∃ total m pp, dictCand st j di pp0 surface p = stateUpd st j total m pp ∧
      m.surface = surface := by
  unfold dictCand
  dsimp only
  split_ifs <;> first | exact Or.inl rfl | exact Or.inr ⟨_, _, _, rfl, rfl⟩

theorem conjCand_cases (t : KTrie.Trie) (st : DPState) (j : Nat) (di : ℤ)
    (pp0 : Option String) (surface stem ending : List Char) :
    conjCand t st j di pp0 surface stem ending = st ∨
    ∃ total m pp, conjCand t st j di pp0 surface stem ending = stateUpd st j total m pp ∧
      m.surface = surface := by
  unfold conjCand
  dsimp only
  split
  · exact Or.inl rfl
  · split
    · exact Or.inl rfl
    · split
      · exact Or.inl rfl
      · split_ifs
        · exact Or.inr ⟨_, _, _, rfl, rfl⟩
        · exact Or.inl rfl

end Stem

namespace Stem

theorem searchAll_bounds {t : KTrie.Trie} {text : List Char} :
    ∀ tr ∈ KTrie.searchAllPatterns t text, tr.1 < tr.2.1 ∧ tr.2.1 ≤ text.length := by
  intro tr htr
  have h := KTrie.searchGo_sound t text text 0 [] (by simp) tr htr
  exact ⟨h.1, h.2.1⟩

theorem dpSome_stateUpd {st : DPState} {j : Nat} {total : ℤ} {m : Morph}
    {pp : String} {k : Nat} (h : st.dp.getD k none ≠ none) :
    (stateUpd st j total m pp).dp.getD k none ≠ none :=
  getD_set_some_ne_none h

theorem dpSome_dictCand {st : DPState} {j : Nat} {di : ℤ} {pp0 : Option String}
    {surface : List Char} {p : KTrie.Pat} {k : Nat} (h : st.dp.getD k none ≠ none) :
    (dictCand st j di pp0 surface p).dp.getD k none ≠ none := by
  rcases dictCand_cases st j di pp0 surface p with he | ⟨total, m, pp, he, _⟩ <;>
    rw [he]
  · exact h
  · exact dpSome_stateUpd h

theorem dpSome_conjCand {t : KTrie.Trie} {st : DPState} {j : Nat} {di : ℤ}
    {pp0 : Option String} {surface stem ending : List Char} {k : Nat}
    (h : st.dp.getD k none ≠ none) :
    (conjCand t st j di pp0 surface stem ending).dp.getD k none ≠ none := by
  rcases conjCand_cases t st j di pp0 surface stem ending with he | ⟨total, m, pp, he, _⟩ <;>
    rw [he]
  · exact h
  · exact dpSome_stateUpd h

/-- Surface slices have their nominal length inside the sentence. -/
theorem slice_length {sentence : List Char} {i k : Nat}
    (h : i + k ≤ sentence.length) :
    ((sentence.drop i).take k).length = k := by
  simp only [List.length_take, List.length_drop]
  omega

theorem dictStep_inv {t : KTrie.Trie} {sentence : List Char} {n i : Nat}
    {di : ℤ} {pp0 : Option String} {st : DPState}
    (hn : sentence.length = n) (hInv : Inv sentence n st) :
    Inv sentence n (dictStep t sentence n i di pp0 st) := by
  unfold dictStep
  dsimp only
  apply foldl_inv _ st _ hInv
  intro st1 tr htr h1
  by_cases hz : tr.1 ≠ 0
  · rw [if_pos hz]; exact h1
  · rw [if_neg hz]
    push_neg at hz
    obtain ⟨hlt, hub⟩ := searchAll_bounds tr htr
    have hsub : ((sentence.drop i).take (min (i + 16) n - i)).length ≤ n - i := by
      simp only [List.length_take, List.length_drop, hn]
      omega
    have hj1 : 1 ≤ tr.2.1 := by omega
    have hjn : i + tr.2.1 ≤ n := by omega
    have hlen : ((sentence.drop i).take (i + tr.2.1 - i)).length = tr.2.1 := by
      have : i + tr.2.1 - i = tr.2.1 := by omega
      rw [this]
      exact slice_length (by omega)
    apply foldl_inv _ st1 _ h1
    intro st2 p _ h2
    rcases dictCand_cases st2 (i + tr.2.1) di pp0
        ((sentence.drop i).take (i + tr.2.1 - i)) p with he | ⟨total, m, pp, he, hms⟩ <;>
      rw [he]
    · exact h2
    · have hmlen : m.surface.length = tr.2.1 := by rw [hms]; exact hlen
      apply stateUpd_inv h2 (by omega) hjn (by omega) (by omega)
      have hji : i + tr.2.1 - m.surface.length = i := by omega
      rw [hji, hms, hlen]
      congr 1
      omega

theorem conjStep_inv {t : KTrie.Trie} {sentence : List Char} {n i : Nat}
    {di : ℤ} {pp0 : Option String} {st st' : DPState}
    (hn : sentence.length = n)
    (h : conjStep t sentence n i di pp0 st = .ok st') (hInv : Inv sentence n st) :
    Inv sentence n st' := by
  unfold conjStep at h
  apply foldlM_inv _ st st' h _ hInv
  intro st1 j st2 hj h1 hstep
  have hjb := List.mem_range'_1.mp hj
  have hm1 : min (i + 8) (n + 1) ≤ i + 8 := Nat.min_le_left _ _
  have hm2 : min (i + 8) (n + 1) ≤ n + 1 := Nat.min_le_right _ _
  have hij : i + 1 ≤ j ∧ j ≤ n := by omega
  dsimp only at hstep
  cases hres : restoreVerbStem ((sentence.drop i).take (j - i)) with
  | error e => rw [hres] at hstep; cases hstep
  | ok conjResults =>
    rw [hres] at hstep
    cases hstep
    apply foldl_inv _ st1 _ h1
    intro st2 se _ h2
    rcases conjCand_cases t st2 j di pp0 ((sentence.drop i).take (j - i)) se.1 se.2
      with he | ⟨total, m, pp, he, hms⟩ <;> rw [he]
    · exact h2
    · have hlen : ((sentence.drop i).take (j - i)).length = j - i :=
        slice_length (by omega)
      have hmlen : m.surface.length = j - i := by rw [hms]; exact hlen
      apply stateUpd_inv h2 (by omega) hij.2 (by omega) (by omega)
      have hji : j - m.surface.length = i := by omega
      rw [hji, hms, hlen]

theorem oovBody_inv {sentence : List Char} {n i : Nat} {di : ℤ} {st : DPState}
    {j : Nat} (hn : sentence.length = n) (hij : i + 1 ≤ j) (hjn : j ≤ n)
    (h1 : Inv sentence n st) :
    Inv sentence n
      (if st.dp.getD j none = none then
        if ltInf (di + COST_OOV)
            (st.dp.getD j none) then
          stateUpd st j (di + COST_OOV)
            (mkMorphScored ((sentence.drop i).take (j - i)) "NNG"
              (String.mk ((sentence.drop i).take (j - i))) (1/2)) "NNG"
        else st
      else st) := by
  split_ifs with h2 h3
  · have hlen : ((sentence.drop i).take (j - i)).length = j - i :=
      slice_length (by omega)
    apply stateUpd_inv h1 (by omega) hjn
      (by simp only [mkMorphScored, Morph.surface, hlen]; omega)
      (by simp only [mkMorphScored, Morph.surface, hlen]; omega)
    show ((sentence.drop i).take (j - i)) =
      (sentence.drop (j - ((sentence.drop i).take (j - i)).length)).take
        ((sentence.drop i).take (j - i)).length
    rw [hlen]
    have hji : j - (j - i) = i := by omega
    rw [hji]
  · exact h1
  · exact h1

theorem oovStep_inv {sentence : List Char} {n i : Nat} {di : ℤ} {st : DPState}
    (hn : sentence.length = n) (hInv : Inv sentence n st) :
    Inv sentence n (oovStep sentence n i di st) := by
  unfold oovStep
  apply foldl_inv _ st _ hInv
  intro st1 j hj h1
  have hjb := List.mem_range'_1.mp hj
  have hm1 : min (i + 16) (n + 1) ≤ i + 16 := Nat.min_le_left _ _
  have hm2 : min (i + 16) (n + 1) ≤ n + 1 := Nat.min_le_right _ _
  exact oovBody_inv hn (by omega) (by omega) h1

theorem analyzeStep_inv {t : KTrie.Trie} {sentence : List Char} {n : Nat}
    {st st' : DPState} {i : Nat} (hn : sentence.length = n)
    (h : analyzeStep t sentence n st i = .ok st') (hInv : Inv sentence n st) :
    Inv sentence n st' := by
  unfold analyzeStep at h
  cases hdi : st.dp.getD i none with
  | none => rw [hdi] at h; cases h; exact hInv
  | some di =>
    rw [hdi] at h
    dsimp only at h
    cases hc : conjStep t sentence n i di (st.prevPos.getD i none)
        (dictStep t sentence n i di (st.prevPos.getD i none) st) with
    | error e => rw [hc] at h; cases h
    | ok st2 =>
      rw [hc] at h
      cases h
      exact oovStep_inv hn (conjStep_inv hn hc (dictStep_inv hn hInv))

end Stem

namespace Stem

theorem dpSome_dictStep {t : KTrie.Trie} {sentence : List Char} {n i : Nat}
    {di : ℤ} {pp0 : Option String} {st : DPState} {k : Nat}
    (h : st.dp.getD k none ≠ none) :
    (dictStep t sentence n i di pp0 st).dp.getD k none ≠ none := by
  unfold dictStep
  dsimp only
  apply foldl_inv (P := fun b => b.dp.getD k none ≠ none) _ st _ h
  intro st1 tr _ h1
  by_cases hz : tr.1 ≠ 0
  · rw [if_pos hz]; exact h1
  · rw [if_neg hz]
    apply foldl_inv (P := fun b => b.dp.getD k none ≠ none) _ st1 _ h1
    intro st2 p _ h2
    exact dpSome_dictCand h2

theorem dpSome_conjStep {t : KTrie.Trie} {sentence : List Char} {n i : Nat}
    {di : ℤ} {pp0 : Option String} {st st' : DPState} {k : Nat}
    (h : conjStep t sentence n i di pp0 st = .ok st')
    (hk : st.dp.getD k none ≠ none) : st'.dp.getD k none ≠ none := by
  unfold conjStep at h
  apply foldlM_inv (P := fun b => b.dp.getD k none ≠ none) _ st st' h _ hk
  intro st1 j st2 _ h1 hstep
  dsimp only at hstep
  cases hres : restoreVerbStem ((sentence.drop i).take (j - i)) with
  | error e => rw [hres] at hstep; cases hstep
  | ok conjResults =>
    rw [hres] at hstep
    cases hstep
    apply foldl_inv (P := fun b => b.dp.getD k none ≠ none) _ st1 _ h1
    intro st3 se _ h3
    exact dpSome_conjCand h3

theorem dpSome_oovStep {sentence : List Char} {n i : Nat} {di : ℤ}
    {st : DPState} {k : Nat} (h : st.dp.getD k none ≠ none) :
    (oovStep sentence n i di st).dp.getD k none ≠ none := by
  unfold oovStep
  apply foldl_inv (P := fun b => b.dp.getD k none ≠ none) _ st _ h
  intro st1 j _ h1
  dsimp only
  split_ifs with h2 h3
  · exact dpSome_stateUpd h1
  · exact h1
  · exact h1

/-- After iteration `i`, position `i + 1` carries a finite cost: the OOV
block always reaches it. -/
theorem oovStep_establish {sentence : List Char} {n i : Nat} {di : ℤ}
    {st : DPState} (hn : sentence.length = n) (hi : i < n)
    (hInv : Inv sentence n st) :
    (oovStep sentence n i di st).dp.getD (i + 1) none ≠ none := by
  unfold oovStep
  have hmem : i + 1 ∈ List.range' (i + 1) (min (i + 16) (n + 1) - (i + 1)) := by
    have hge : i + 2 ≤ min (i + 16) (n + 1) := Nat.le_min.mpr ⟨by omega, by omega⟩
    exact List.mem_range'_1.mpr ⟨Nat.le_refl _, by omega⟩
  apply foldl_establish (Q := fun b => b.dp.getD (i + 1) none ≠ none)
    (R := fun b => Inv sentence n b) _ st hmem _ _ _ hInv
  · intro b hb
    dsimp only
    by_cases hnone : b.dp.getD (i + 1) none = none
    · rw [if_pos hnone, hnone]
      show ((b.dp.set (i + 1) _)).getD (i + 1) none ≠ none
      have hlt : i + 1 < b.dp.length := by
        have := hb.1
        omega
      rw [getD_set_self hlt]
      exact fun he => Option.noConfusion he
    · rw [if_neg hnone]; exact hnone
  · intro b j hj hb
    have hjb := List.mem_range'_1.mp hj
    have hm1 : min (i + 16) (n + 1) ≤ i + 16 := Nat.min_le_left _ _
    have hm2 : min (i + 16) (n + 1) ≤ n + 1 := Nat.min_le_right _ _
    exact oovBody_inv hn (by omega) (by omega) hb
  · intro b j _ hb
    dsimp only
    split_ifs with h2 h3
    · exact dpSome_stateUpd hb
    · exact hb
    · exact hb

/-- Indexed induction over the outer DP loop in the `Except` monad. -/
theorem loop_ind {t : KTrie.Trie} {sentence : List Char} {n : Nat}
    (P : Nat → DPState → Prop)
    (hstep : ∀ i st st', i < n → analyzeStep t sentence n st i = .ok st' →
      P i st → P (i + 1) st') :
    ∀ cnt i st st', i + cnt = n →
      (List.range' i cnt).foldlM (analyzeStep t sentence n) st = .ok st' →
      P i st → P n st' := by
  intro cnt
  induction cnt with
  | zero =>
    intro i st st' hin h hP
    simp only [List.range'_zero, List.foldlM_nil] at h
    cases h
    obtain rfl : i = n := by omega
    exact hP
  | succ c ih =>
    intro i st st' hin h hP
    rw [List.range'_succ, List.foldlM_cons] at h
    cases hx : analyzeStep t sentence n st i with
    | error e => rw [hx] at h; cases h
    | ok st1 =>
      rw [hx] at h
      exact ih (i + 1) st1 st' (by omega) h (hstep i st st1 (by omega) hx hP)

theorem getD_replicate_none {α : Type} :
    ∀ (n k : Nat), (List.replicate n (none : Option α)).getD k none = none := by
  intro n
  induction n with
  | zero => intro k; cases k <;> rfl
  | succ m ih =>
    intro k
    cases k with
    | zero => rfl
    | succ k2 => exact ih k2

theorem initState_inv {sentence : List Char} {n : Nat}
    (hn : sentence.length = n) : Inv sentence n (initState n) := by
  refine ⟨by simp [initState], by simp [initState], by simp [initState], ?_, ?_⟩
  · intro k hk1 hdp
    exfalso
    apply hdp
    show ((some (0 : ℤ) :: List.replicate n none).getD k none) = none
    cases k with
    | zero => omega
    | succ k2 => exact getD_replicate_none n k2
  · intro j m hm
    exfalso
    have hm2 : (List.replicate (n + 1) (none : Option Morph)).getD j none = some m := hm
    rw [getD_replicate_none (n + 1) j] at hm2
    exact Option.noConfusion hm2

/-- After the whole DP loop: the invariant, plus a finite cost (hence a path
entry) at every position up to `n`. -/
theorem loop_reach {t : KTrie.Trie} {sentence : List Char} {n : Nat}
    {st' : DPState} (hn : sentence.length = n)
    (h : (List.range' 0 n).foldlM (analyzeStep t sentence n) (initState n) = .ok st') :
    Inv sentence n st' ∧ ∀ k, k ≤ n → st'.dp.getD k none ≠ none := by
  apply loop_ind
    (P := fun i st => Inv sentence n st ∧ ∀ k, k ≤ i → st.dp.getD k none ≠ none)
    ?_ n 0 (initState n) st' (by omega) h ?_
  · intro i st st2 hi hstep hP
    obtain ⟨hInv, hsome⟩ := hP
    unfold analyzeStep at hstep
    cases hdi : st.dp.getD i none with
    | none => exact absurd hdi (hsome i (Nat.le_refl _))
    | some di =>
      rw [hdi] at hstep
      dsimp only at hstep
      cases hc : conjStep t sentence n i di (st.prevPos.getD i none)
          (dictStep t sentence n i di (st.prevPos.getD i none) st) with
      | error e => rw [hc] at hstep; cases hstep
      | ok stc =>
        rw [hc] at hstep
        cases hstep
        have hInvC : Inv sentence n stc := conjStep_inv hn hc (dictStep_inv hn hInv)
        constructor
        · exact oovStep_inv hn hInvC
        · intro k hk
          rcases Nat.lt_or_ge k (i + 1) with hk2 | hk2
          · exact dpSome_oovStep (dpSome_conjStep hc
              (dpSome_dictStep (hsome k (by omega))))
          · obtain rfl : k = i + 1 := by omega
            exact oovStep_establish hn hi hInvC
  · exact ⟨initState_inv hn, fun k hk => by
      obtain rfl : k = 0 := by omega
      show ((some (0 : ℤ) :: List.replicate n none).getD 0 none) ≠ none
      simp⟩

end Stem

namespace Stem

/-- The backtrack walk tiles the sentence: the surfaces of the visited spans,
concatenated left to right, are exactly the prefix up to the walk's start. -/
theorem walk_ok {sentence : List Char} {n : Nat} {st : DPState}
    (hInv : Inv sentence n st)
    (hAll : ∀ k, 1 ≤ k → k ≤ n → st.path.getD k none ≠ none) :
    ∀ fuel cur, cur ≤ fuel → cur ≤ n →
      (((spansGo st.path fuel cur).reverse.map Morph.surface).flatten =
        sentence.take cur) := by
  intro fuel
  induction fuel with
  | zero =>
    intro cur h1 _
    obtain rfl : cur = 0 := by omega
    simp [spansGo]
  | succ f ih =>
    intro cur hf hn2
    cases cur with
    | zero => simp [spansGo]
    | succ c =>
      have hp : st.path.getD (c + 1) none ≠ none := hAll (c + 1) (by omega) hn2
      cases hm : st.path.getD (c + 1) none with
      | none => exact absurd hm hp
      | some m =>
        obtain ⟨h1, h2, _, h4⟩ := hInv.2.2.2.2 (c + 1) m hm
        show (((spansGo st.path (f + 1) (c + 1)).reverse.map Morph.surface).flatten =
          sentence.take (c + 1))
        rw [show spansGo st.path (f + 1) (c + 1) =
          m :: spansGo st.path f (c + 1 - m.surface.length) by
            simp only [spansGo, hm]]
        rw [List.reverse_cons, List.map_append, List.flatten_append]
        rw [ih (c + 1 - m.surface.length) (by omega) (by omega)]
        have hsplit : sentence.take (c + 1) =
            sentence.take (c + 1 - m.surface.length) ++
            (sentence.drop (c + 1 - m.surface.length)).take m.surface.length := by
          rw [← List.take_add]
          congr 1
          omega
        rw [hsplit, ← h4]
        simp

/-- `_analyze_sentence` always produces a list of span morphemes that tile the
sentence, of which the output is the in-order composite expansion. -/
theorem analyzeSentence_spans {t : KTrie.Trie} {sentence : List Char}
    {res : List Morph} (h : analyzeSentence t sentence = .ok res) :
    ∃ spans : List Morph, (spans.map Morph.surface).flatten = sentence ∧
      res = spans.flatMap expandSub := by
  unfold analyzeSentence at h
  by_cases hs : sentence = []
  · rw [if_pos hs] at h
    cases h
    exact ⟨[], by simp [hs], by simp⟩
  · rw [if_neg hs] at h
    dsimp only at h
    cases hloop : (List.range sentence.length).foldlM
        (analyzeStep t sentence sentence.length) (initState sentence.length) with
    | error e => rw [hloop] at h; cases h
    | ok st =>
      rw [hloop] at h
      cases h
      rw [List.range_eq_range'] at hloop
      obtain ⟨hInv, hAllDp⟩ := loop_reach rfl hloop
      have hAll : ∀ k, 1 ≤ k → k ≤ sentence.length →
          st.path.getD k none ≠ none := by
        intro k hk1 hk2
        exact hInv.2.2.2.1 k hk1 (hAllDp k hk2)
      refine ⟨spansOf st.path sentence.length, ?_, backtrack_eq_spans _ _⟩
      have := walk_ok hInv hAll (sentence.length + 1) sentence.length
        (by omega) (by omega)
      rw [show (spansOf st.path sentence.length).map Morph.surface =
        (spansGo st.path (sentence.length + 1) sentence.length).reverse.map
          Morph.surface from rfl]
      rw [this, List.take_length]

end Stem

namespace Stem

theorem splitKeepGo_flatten : ∀ (l acc : List Char),
    (splitKeepGo l acc).flatten = acc.reverse ++ l := by
  intro l
  induction l with
  | nil => intro acc; simp [splitKeepGo]
  | cons c rest ih =>
    intro acc
    by_cases hd : sentenceDelims.contains c
    · simp only [splitKeepGo, if_pos hd, List.flatten_cons, ih]
      simp
    · simp only [splitKeepGo, if_neg hd, ih]
      simp

theorem splitKeepGo_chars : ∀ (l acc : List Char) (p : List Char),
    p ∈ splitKeepGo l acc → ∀ c ∈ p, c ∈ acc ∨ c ∈ l := by
  intro l
  induction l with
  | nil =>
    intro acc p hp c hc
    simp only [splitKeepGo, List.mem_singleton] at hp
    subst hp
    exact Or.inl (List.mem_reverse.mp hc)
  | cons d rest ih =>
    intro acc p hp c hc
    by_cases hd : sentenceDelims.contains d
    · simp only [splitKeepGo, if_pos hd] at hp
      rcases List.mem_cons.mp hp with rfl | hp2
      · exact Or.inl (List.mem_reverse.mp hc)
      · rcases List.mem_cons.mp hp2 with rfl | hp3
        · simp only [List.mem_singleton] at hc
          subst hc
          exact Or.inr (List.mem_cons_self _ _)
        · rcases ih [] p hp3 c hc with h | h
          · simp at h
          · exact Or.inr (List.mem_cons_of_mem _ h)
    · simp only [splitKeepGo, if_neg hd] at hp
      rcases ih (d :: acc) p hp c hc with h | h
      · rcases List.mem_cons.mp h with rfl | h2
        · exact Or.inr (List.mem_cons_self _ _)
        · exact Or.inl h2
      · exact Or.inr (List.mem_cons_of_mem _ h)

theorem pySplitGo_flatten : ∀ (l acc : List Char),
    (pySplitGo l acc).flatten = acc.reverse ++ l.filter (fun c => ! pyIsSpace c) := by
  intro l
  induction l with
  | nil =>
    intro acc
    by_cases ha : acc = []
    · simp [pySplitGo, ha]
    · simp [pySplitGo, ha]
  | cons c rest ih =>
    intro acc
    by_cases hs : pyIsSpace c
    · simp only [pySplitGo, if_pos hs, List.flatten_append, ih]
      by_cases ha : acc = [] <;>
        simp [ha, List.filter_cons, hs]
    · simp only [pySplitGo, if_neg hs, ih]
      simp [List.filter_cons, hs]

theorem pySplitGo_nospace : ∀ (l acc : List Char),
    (∀ c ∈ acc, pyIsSpace c = false) →
    ∀ p ∈ pySplitGo l acc, ∀ c ∈ p, pyIsSpace c = false := by
  intro l
  induction l with
  | nil =>
    intro acc hacc p hp c hc
    by_cases ha : acc = []
    · simp [pySplitGo, ha] at hp
    · simp only [pySplitGo, if_neg ha, List.mem_singleton] at hp
      subst hp
      exact hacc c (List.mem_reverse.mp hc)
  | cons d rest ih =>
    intro acc hacc p hp c hc
    by_cases hs : pyIsSpace d
    · simp only [pySplitGo, if_pos hs, List.mem_append] at hp
      rcases hp with hp1 | hp2
      · by_cases ha : acc = []
        · simp [ha] at hp1
        · simp only [if_neg ha, List.mem_singleton] at hp1
          subst hp1
          exact hacc c (List.mem_reverse.mp hc)
      · exact ih [] (by intro x hx; simp at hx) p hp2 c hc
    · simp only [pySplitGo, if_neg hs] at hp
      refine ih (d :: acc) ?_ p hp c hc
      intro x hx
      rcases List.mem_cons.mp hx with rfl | hx2
      · exact Bool.eq_false_iff.mpr hs
      · exact hacc x hx2

theorem dropWhile_eq_self_of_nospace {l : List Char}
    (h : ∀ c ∈ l, pyIsSpace c = false) : l.dropWhile pyIsSpace = l := by
  cases l with
  | nil => rfl
  | cons c rest =>
    simp [List.dropWhile, h c (List.mem_cons_self _ _)]

theorem pyStrip_eq_self {s : List Char}
    (h : ∀ c ∈ s, pyIsSpace c = false) : pyStrip s = s := by
  unfold pyStrip
  rw [dropWhile_eq_self_of_nospace h]
  rw [dropWhile_eq_self_of_nospace (by
    intro c hc
    exact h c (List.mem_reverse.mp hc))]
  exact List.reverse_reverse s

theorem stemmerFold_spans {t : KTrie.Trie} :
    ∀ (pieces : List (List Char)) (acc res : List (List Morph)),
    (∀ p ∈ pieces, ∀ c ∈ p, pyIsSpace c = false) →
    pieces.foldlM
      (fun acc2 sent0 =>
        let sent := pyStrip sent0
        if sent = [] then (Except.ok acc2 : Except PyErr (List (List Morph)))
        else
          match analyzeSentence t sent with
          | Except.error e => Except.error e
          | Except.ok ms => Except.ok (acc2 ++ [ms])) acc = Except.ok res →
    ∃ spans : List Morph,
      (spans.map Morph.surface).flatten = pieces.flatten ∧
      res.flatten = acc.flatten ++ spans.flatMap expandSub := by
  intro pieces
  induction pieces with
  | nil =>
    intro acc res _ h
    simp only [List.foldlM_nil] at h
    cases h
    exact ⟨[], by simp, by simp⟩
  | cons p ps ih =>
    intro acc res hns h
    simp only [List.foldlM_cons] at h
    have hp := pyStrip_eq_self (hns p (List.mem_cons_self _ _))
    rw [hp] at h
    by_cases he : p = []
    · rw [if_pos he] at h
      obtain ⟨spans, h1, h2⟩ := ih acc res
        (fun q hq => hns q (List.mem_cons_of_mem _ hq)) h
      exact ⟨spans, by simp [he, h1], h2⟩
    · rw [if_neg he] at h
      cases ha : analyzeSentence t p with
      | error e2 => rw [ha] at h; cases h
      | ok ms =>
        rw [ha] at h
        obtain ⟨spansR, h1, h2⟩ := ih (acc ++ [ms]) res
          (fun q hq => hns q (List.mem_cons_of_mem _ hq)) h
        obtain ⟨spansP, hp1, hp2⟩ := analyzeSentence_spans ha
        refine ⟨spansP ++ spansR, ?_, ?_⟩
        · simp only [List.map_append, List.flatten_append, hp1, h1,
            List.flatten_cons]
        · rw [h2, List.flatMap_append, ← hp2]
          simp

theorem stemmerAnalyze_spans {t : KTrie.Trie} {text : List Char}
    {results : List (List Morph)}
    (hns : ∀ c ∈ text, pyIsSpace c = false)
    (h : stemmerAnalyze t text = .ok results) :
    ∃ spans : List Morph, (spans.map Morph.surface).flatten = text ∧
      results.flatten = spans.flatMap expandSub := by
  unfold stemmerAnalyze at h
  obtain ⟨spans, h1, h2⟩ := stemmerFold_spans (splitKeep text) [] results
    (by
      intro p hp c hc
      rcases splitKeepGo_chars text [] p hp c hc with h3 | h3
      · simp at h3
      · exact hns c h3) h
  refine ⟨spans, ?_, by simpa using h2⟩
  rw [h1]
  show (splitKeepGo text []).flatten = text
  rw [splitKeepGo_flatten]
  simp

theorem analyzerFold_spans {t : KTrie.Trie} :
    ∀ (eojeols : List (List Char)) (acc res : List Morph),
    (∀ e ∈ eojeols, ∀ c ∈ e, pyIsSpace c = false) →
    eojeols.foldlM
      (fun acc2 eojeol =>
        match stemmerAnalyze t eojeol with
        | Except.error e => (Except.error e : Except PyErr (List Morph))
        | Except.ok results => Except.ok (acc2 ++ results.flatten)) acc =
      Except.ok res →
    ∃ spans : List Morph,
      (spans.map Morph.surface).flatten = eojeols.flatten ∧
      res = acc ++ spans.flatMap expandSub := by
  intro eojeols
  induction eojeols with
  | nil =>
    intro acc res _ h
    simp only [List.foldlM_nil] at h
    cases h
    exact ⟨[], by simp, by simp⟩
  | cons e es ih =>
    intro acc res hns h
    simp only [List.foldlM_cons] at h
    cases ha : stemmerAnalyze t e with
    | error e2 => rw [ha] at h; cases h
    | ok results =>
      rw [ha] at h
      obtain ⟨spansR, h1, h2⟩ := ih (acc ++ results.flatten) res
        (fun q hq => hns q (List.mem_cons_of_mem _ hq)) h
      obtain ⟨spansE, he1, he2⟩ := stemmerAnalyze_spans
        (hns e (List.mem_cons_self _ _)) ha
      refine ⟨spansE ++ spansR, ?_, ?_⟩
      · simp only [List.map_append, List.flatten_append, he1, h1,
          List.flatten_cons]
      · rw [h2, List.flatMap_append, ← he2]
        simp

end Stem

namespace Stem

/-- The trie obtained by training the eojeol 갔 as 가/VV (lemma 가다) + 았/EP:
it holds 가/VV, 았/EP and the composite key 갔 with POS `VV+EP` and lemma
`가+았`. -/
def c1Trie : KTrie.Trie :=
  trainEojeol KTrie.emptyTrie "갔".data
    [mkMorph "가".data "VV" "가다", mkMorph "았".data "EP" "았"]

end Stem


/-- C1: the spec claims that for every input text the surfaces of the
morphemes returned by `analyze`, concatenated in order, equal the input with
whitespace removed. Counterexample: after training 갔 = 가/VV + 았/EP, the
stored composite entry (and equally the conjugation candidate) expands to
sub-morphemes whose surfaces are lemma forms, and `analyze("갔")` returns
가/VV, 았/EP — surfaces concatenating to 가았, not 갔. -/
theorem claim_C1_counterexample :
    (Stem.analyzerAnalyze Stem.c1Trie "갔".data).map
        (fun ms => (ms.map Stem.Morph.surface).flatten) =
      Except.ok "가았".data ∧
    "가았".data ≠ "갔".data.filter (fun c => ! Stem.pyIsSpace c) :=
  ⟨by decide, by decide⟩

/-- C1 (amended): whenever `MorphAnalyzer.analyze` returns, its output is the
in-order composite expansion of a list of span morphemes whose surfaces
concatenate to the input with whitespace removed; the expansion of a
composite replaces it by sub-morphemes whose surfaces are lemma forms, which
need not re-concatenate to the span. -/
theorem claim_C1_amended (t : KTrie.Trie) (text : List Char)
    (res : List Stem.Morph) (h : Stem.analyzerAnalyze t text = Except.ok res) :
    ∃ spans : List Stem.Morph,
      (spans.map Stem.Morph.surface).flatten =
        text.filter (fun c => ! Stem.pyIsSpace c) ∧
      res = spans.flatMap Stem.expandSub := by
  unfold Stem.analyzerAnalyze at h
  obtain ⟨spans, h1, h2⟩ := Stem.analyzerFold_spans (Stem.pySplit text) [] res
    (Stem.pySplitGo_nospace text [] (by intro c hc; simp at hc)) h
  refine ⟨spans, ?_, by simpa using h2⟩
  rw [h1]
  show (Stem.pySplitGo text []).flatten = _
  rw [Stem.pySplitGo_flatten]
  simp

/-- C1 (amended), witnessed at the empty trie on the single-syllable input
가, which analyzes to one OOV span. -/
theorem claim_C1_amended_witness :
    ∃ spans : List Stem.Morph,
      (spans.map Stem.Morph.surface).flatten =
        "가".data.filter (fun c => ! Stem.pyIsSpace c) ∧
      [Stem.mkMorphScored "가".data "NNG" "가" (1/2)] =
        spans.flatMap Stem.expandSub :=
  claim_C1_amended KTrie.emptyTrie "가".data
    [Stem.mkMorphScored "가".data "NNG" "가" (1/2)] (by rfl)
